import Mathlib

/-!
Verification development for the offheap object store.

The development shallowly embeds the Go package objectstore
(pkg/store/objectstore/object_store.go) into Lean. A store owns chunked
parallel lists of per-slot metadata and object values; allocation either
pops the free list threaded through slot metadata or bumps an offset,
appending a chunk of 1024 slots when the current one fills. References
are (chunk, offset) pairs of uint32 values, both 1-based, with the zero
value acting as nil. Machine integers are modelled as Nat with an
explicit modulus where the Go code performs a uint32 cast or where a
uint32 subtraction could wrap.

The pointer-tagged reference type of the pointerstore package appears in
the repository only through its tests; that part is modelled from the
specification, and is kept clearly separate at the end of the
definitions section.
-/

namespace OS

set_option maxRecDepth 8000

/-- Two to the 32, the modulus of Go uint32 arithmetic. -/
def U32 : Nat := 2 ^ 32

/-- The index a Go uint32 subtraction n - 1 produces: n - 1 for 1 <= n < 2^32,
and 2^32 - 1 when n = 0 (wrap-around). Mirrors the expressions
r.chunk - 1 and r.offset - 1 in object_store.go. -/
def sub1u32 (n : Nat) : Nat := (n + (U32 - 1)) % U32

/-- Reference is the opaque handle produced by Alloc. Modelled from the spec:
the Reference struct itself is not under src/, but object_store.go constructs
it with the two uint32 fields chunk and offset and compares it against the
zero value, and the spec states that a nil Reference has all fields zero. -/
structure Ref where
  chunk : Nat
  offset : Nat
deriving DecidableEq, Repr

/-- The all-zero (nil) reference. -/
def Ref.nil : Ref := ⟨0, 0⟩

/-- Modelled from the spec: IsNil is true iff all fields are zero. -/
def Ref.IsNil (r : Ref) : Bool := r.chunk == 0 && r.offset == 0

/-- Per-slot metadata: the meta struct of object_store.go. A slot whose
nextFree reference is non-nil is currently free. -/
structure MetaRec where
  nextFree : Ref
deriving DecidableEq, Repr

/-- The zero-initialised metadata record Go's make produces. -/
def MetaRec.zero : MetaRec := ⟨Ref.nil⟩

/-- The constant objectChunkSize of object_store.go. -/
def objectChunkSize : Nat := 1024

/-- The Store struct of object_store.go, specialised over an object type. -/
structure Store (O : Type) where
  chunkSize : Nat
  allocs : Nat
  frees : Nat
  reused : Nat
  offset : Nat
  rootFree : Ref
  meta : List (List MetaRec)
  objects : List (List O)
deriving Repr

/-- The New constructor: one zero-initialised chunk of metadata and objects. -/
def New (O : Type) [Inhabited O] : Store O :=
  { chunkSize := objectChunkSize
    allocs := 0
    frees := 0
    reused := 0
    offset := 0
    rootFree := Ref.nil
    meta := [List.replicate objectChunkSize MetaRec.zero]
    objects := [List.replicate objectChunkSize default] }

/-- getMeta of object_store.go: s.meta[r.chunk-1][r.offset-1], where the
subtractions are on uint32 values. Returns none when Go would panic with an
index out of range. -/
def getMeta? (s : Store O) (r : Ref) : Option MetaRec :=
  (s.meta[sub1u32 r.chunk]?).bind fun ch => ch[sub1u32 r.offset]?

/-- getObject of object_store.go: s.objects[r.chunk-1][r.offset-1]. -/
def getObject? (s : Store O) (r : Ref) : Option O :=
  (s.objects[sub1u32 r.chunk]?).bind fun ch => ch[sub1u32 r.offset]?

/-- Replace the element at position i of a list, if it exists. -/
def listSet (l : List α) (i : Nat) (a : α) : List α := l.set i a

/-- Write through the metadata pointer getMeta returns: replace the target
slot's metadata record. -/
def setMeta (s : Store O) (r : Ref) (m : MetaRec) : Store O :=
  { s with
    meta := match s.meta[sub1u32 r.chunk]? with
      | none => s.meta
      | some ch => s.meta.set (sub1u32 r.chunk) (ch.set (sub1u32 r.offset) m) }

/-- Write through the object pointer Get and Alloc return: replace the target
slot's object value. -/
def writeObject (s : Store O) (r : Ref) (v : O) : Store O :=
  { s with
    objects := match s.objects[sub1u32 r.chunk]? with
      | none => s.objects
      | some ch => s.objects.set (sub1u32 r.chunk) (ch.set (sub1u32 r.offset) v) }

/-- Get of object_store.go. Returns none exactly where Go panics: when the
index is out of range, or when the slot's metadata has a non-nil nextFree
(attempt to Get a freed object). -/
def Get? (s : Store O) (r : Ref) : Option O :=
  match getMeta? s r with
  | none => none
  | some m => if !m.nextFree.IsNil then none else getObject? s r

/-- Free of object_store.go, with the mutations in source order. The boolean
is false exactly where Go panics (index out of range, or attempt to Free a
freed object); in that case the returned store is the state at the panic. -/
def Free (s : Store O) (r : Ref) : Store O × Bool :=
  match getMeta? s r with
  | none => (s, false)
  | some m =>
    if !m.nextFree.IsNil then (s, false)
    else
      let s1 := { s with frees := s.frees + 1 }
      let m' : MetaRec := if s1.rootFree.IsNil then ⟨r⟩ else ⟨s1.rootFree⟩
      let s2 := setMeta s1 r m'
      ({ s2 with rootFree := r }, true)

/-- allocFromFree of object_store.go: pop the root of the free list, clear
its nextFree pointer, and advance the root, treating a self-link as the
end-of-list sentinel. none models the index-out-of-range panic of getMeta. -/
def allocFromFree (s : Store O) : Option (Store O × Ref) :=
  let alloc := s.rootFree
  match getMeta? s alloc with
  | none => none
  | some freeMeta =>
    let nextFree := freeMeta.nextFree
    let s1 := setMeta s alloc ⟨Ref.nil⟩
    let s2 := { s1 with rootFree := nextFree }
    let s3 := if nextFree = alloc then { s2 with rootFree := Ref.nil } else s2
    some (s3, alloc)

/-- allocFromOffset of object_store.go: bump the in-chunk offset (a uint32),
appending a fresh zero-initialised chunk when the current one fills. The
chunk field of the returned reference is uint32(len(s.objects)). -/
def allocFromOffset (s : Store O) [Inhabited O] : Store O × Ref :=
  let chunk := s.objects.length % U32
  let s1 := { s with offset := (s.offset + 1) % U32 }
  let offset := s1.offset
  let s2 :=
    if s1.offset = s1.chunkSize then
      { s1 with
        meta := s1.meta ++ [List.replicate s1.chunkSize MetaRec.zero]
        objects := s1.objects ++ [List.replicate s1.chunkSize default]
        offset := 0 }
    else s1
  (s2, ⟨chunk, offset⟩)

/-- Alloc of object_store.go: count the allocation, then reuse a freed slot
when the free list is non-empty, otherwise bump the offset. none models the
(unreachable under the store invariant) panic inside allocFromFree. -/
def Alloc (s : Store O) [Inhabited O] : Option (Store O × Ref) :=
  let s1 := { s with allocs := s.allocs + 1 }
  if s1.rootFree.IsNil then
    some (allocFromOffset s1)
  else
    let s2 := { s1 with reused := s1.reused + 1 }
    allocFromFree s2

/-- The Stats struct of object_store.go; Go int fields are modelled as Int. -/
structure Stats where
  allocs : Int
  frees : Int
  rawAllocs : Int
  live : Int
  reused : Int
  chunks : Int
deriving DecidableEq, Repr

/-- GetStats of object_store.go. -/
def GetStats (s : Store O) : Stats :=
  { allocs := (s.allocs : Int)
    frees := (s.frees : Int)
    rawAllocs := (s.allocs : Int) - (s.reused : Int)
    live := (s.allocs : Int) - (s.frees : Int)
    reused := (s.reused : Int)
    chunks := (s.objects.length : Int) }

/-- An operation on the store: one Alloc call or one Free call. -/
inductive Op where
  | alloc : Op
  | free : Ref → Op
deriving DecidableEq, Repr

/-- One operation applied to a store. A Go panic aborts the run, so a
panicking operation contributes the state at the panic. -/
def step [Inhabited O] (s : Store O) : Op → Store O
  | Op.alloc =>
    match Alloc s with
    | some (s', _) => s'
    | none => s
  | Op.free r => (Free s r).1

/-- A whole sequence of operations applied to a store. -/
def run [Inhabited O] (s : Store O) (ops : List Op) : Store O :=
  ops.foldl step s

/-- A reference representable as a Go Reference value: both uint32 fields. -/
def Ref.wf (r : Ref) : Prop := r.chunk < U32 ∧ r.offset < U32

/-- An operation whose payload is representable in Go: Free carries a
Reference with uint32 fields. -/
def Op.wf : Op → Prop
  | Op.alloc => True
  | Op.free r => r.wf

/-- A reference whose slot indices land inside the store: chunk selects an
existing chunk and offset selects one of its objectChunkSize slots, both
1-based. -/
def refValid (s : Store O) (r : Ref) : Prop :=
  1 ≤ r.chunk ∧ r.chunk ≤ s.meta.length ∧ 1 ≤ r.offset ∧ r.offset ≤ objectChunkSize

/-- Structural well-formedness of the chunk lists: every chunk holds
objectChunkSize slots, metadata and object chunk lists run in parallel, at
least one chunk exists, and the chunk count is still representable as a
uint32 (so the cast in allocFromOffset is lossless). -/
structure Shape (s : Store O) : Prop where
  chunkSize_eq : s.chunkSize = objectChunkSize
  meta_shape : ∀ ch ∈ s.meta, ch.length = objectChunkSize
  obj_shape : ∀ ch ∈ s.objects, ch.length = objectChunkSize
  len_eq : s.meta.length = s.objects.length
  len_pos : 0 < s.meta.length
  len_lt : s.meta.length < U32

/-- The free list as a chain threaded through slot metadata: each entry's
nextFree names the following entry, and the last entry's nextFree names
itself (the self-link sentinel). -/
def flChain (s : Store O) : List Ref → Prop
  | [] => True
  | [r] => getMeta? s r = some ⟨r⟩
  | r :: r' :: t => getMeta? s r = some ⟨r'⟩ ∧ flChain s (r' :: t)

/-- Raw (bump) allocations performed so far. -/
def rawAllocs (s : Store O) : Nat := s.allocs - s.reused

/-- Full store invariant, parametrised by the abstract free list. -/
structure WF (s : Store O) (fl : List Ref) : Prop where
  shape : Shape s
  reused_le : s.reused ≤ s.allocs
  chunks_eq : s.meta.length = 1 + rawAllocs s / objectChunkSize
  offset_eq : s.offset = rawAllocs s % objectChunkSize
  root_eq : s.rootFree = (fl.head?).getD Ref.nil
  nodup : fl.Nodup
  valid : ∀ r ∈ fl, refValid s r
  chain : flChain s fl
  live_nil : ∀ r, refValid s r → r ∉ fl → getMeta? s r = some ⟨Ref.nil⟩

/-- The 0-based position of a slot in allocation order: slots below the bump
frontier are exactly those with absSlot below rawAllocs. -/
def absSlot (r : Ref) : Nat := (r.chunk - 1) * objectChunkSize + (r.offset - 1)

/-- Every free-list entry lies below the bump frontier; holds whenever Free
was only ever applied to references returned by Alloc. -/
def Frontier (s : Store O) (fl : List Ref) : Prop :=
  ∀ r ∈ fl, absSlot r < rawAllocs s

theorem U32_pos : 0 < U32 := by decide

theorem U32_eq : U32 = 4294967296 := by norm_num [U32]

theorem sub1u32_of_pos {n : Nat} (h1 : 1 ≤ n) (h2 : n ≤ U32) : sub1u32 n = n - 1 := by
  unfold sub1u32
  rw [U32_eq] at h2 ⊢
  omega

theorem sub1u32_zero : sub1u32 0 = U32 - 1 := by
  unfold sub1u32
  exact Nat.mod_eq_of_lt (by decide)

/-- Distinct in-range references address distinct slots. -/
theorem index_inj {s : Store O} {r r' : Ref} (hs : Shape s)
    (hv : refValid s r) (hv' : refValid s r') (hne : r ≠ r') :
    sub1u32 r.chunk ≠ sub1u32 r'.chunk ∨ sub1u32 r.offset ≠ sub1u32 r'.offset := by
  obtain ⟨h1, h2, h3, h4⟩ := hv
  obtain ⟨h1', h2', h3', h4'⟩ := hv'
  have hlt := hs.len_lt
  rw [sub1u32_of_pos h1 (by omega), sub1u32_of_pos h1' (by omega),
      sub1u32_of_pos h3 (by simp [objectChunkSize, U32] at *; omega),
      sub1u32_of_pos h3' (by simp [objectChunkSize, U32] at *; omega)]
  by_contra hcon
  push_neg at hcon
  apply hne
  cases r; cases r'
  simp_all
  omega

/-- A valid reference always resolves to a metadata record. -/
theorem getMeta?_isSome {s : Store O} {r : Ref} (hs : Shape s) (hv : refValid s r) :
    ∃ m, getMeta? s r = some m := by
  obtain ⟨h1, h2, h3, h4⟩ := hv
  have hlt := hs.len_lt
  have hc : sub1u32 r.chunk = r.chunk - 1 := sub1u32_of_pos h1 (by omega)
  have ho : sub1u32 r.offset = r.offset - 1 :=
    sub1u32_of_pos h3 (by simp only [objectChunkSize] at h4; simp only [U32]; omega)
  unfold getMeta?
  rw [hc, ho]
  have hcl : r.chunk - 1 < s.meta.length := by omega
  obtain ⟨ch, hch⟩ : ∃ ch, s.meta[r.chunk - 1]? = some ch :=
    ⟨_, List.getElem?_eq_getElem hcl⟩
  rw [hch]
  have hmem : ch ∈ s.meta := List.getElem?_mem hch
  have hchlen : ch.length = objectChunkSize := hs.meta_shape ch hmem
  have hol : r.offset - 1 < ch.length := by
    rw [hchlen]; simp only [objectChunkSize] at h4 ⊢; omega
  exact ⟨_, List.getElem?_eq_getElem hol⟩

/-- A metadata lookup that succeeds forces the reference to be valid,
provided its fields are genuine uint32 values. -/
theorem refValid_of_getMeta {s : Store O} {r : Ref} (hs : Shape s)
    (hwf : r.wf) {m : MetaRec} (h : getMeta? s r = some m) : refValid s r := by
  obtain ⟨hcw, how⟩ := hwf
  unfold getMeta? at h
  have hlt := hs.len_lt
  rcases Nat.eq_zero_or_pos r.chunk with hc0 | hcpos
  · exfalso
    rw [hc0, sub1u32_zero] at h
    rw [List.getElem?_eq_none (by simp only [U32] at *; omega)] at h
    simp at h
  rcases Nat.eq_zero_or_pos r.offset with ho0 | hopos
  · exfalso
    obtain ⟨ch, hch, hinner⟩ : ∃ ch, s.meta[sub1u32 r.chunk]? = some ch ∧
        ch[sub1u32 r.offset]? = some m := by
      cases hch : s.meta[sub1u32 r.chunk]? with
      | none => rw [hch] at h; simp at h
      | some ch => rw [hch] at h; exact ⟨ch, rfl, h⟩
    have hchlen : ch.length = objectChunkSize := hs.meta_shape ch (List.getElem?_mem hch)
    rw [ho0, sub1u32_zero] at hinner
    rw [List.getElem?_eq_none (by rw [hchlen]; simp only [objectChunkSize, U32]; omega)] at hinner
    simp at hinner
  have hc : sub1u32 r.chunk = r.chunk - 1 := sub1u32_of_pos hcpos (by omega)
  have ho : sub1u32 r.offset = r.offset - 1 := sub1u32_of_pos hopos (by omega)
  rw [hc, ho] at h
  obtain ⟨ch, hch, hinner⟩ : ∃ ch, s.meta[r.chunk - 1]? = some ch ∧
      ch[r.offset - 1]? = some m := by
    cases hch : s.meta[r.chunk - 1]? with
    | none => rw [hch] at h; simp at h
    | some ch => rw [hch] at h; exact ⟨ch, rfl, h⟩
  have hcl : r.chunk - 1 < s.meta.length := by
    by_contra hge
    rw [List.getElem?_eq_none (by omega)] at hch
    simp at hch
  have hchlen : ch.length = objectChunkSize := hs.meta_shape ch (List.getElem?_mem hch)
  have hol : r.offset - 1 < objectChunkSize := by
    by_contra hge
    rw [List.getElem?_eq_none (by rw [hchlen]; omega)] at hinner
    simp at hinner
  exact ⟨hcpos, by omega, hopos, by omega⟩

theorem nil_IsNil : Ref.nil.IsNil = true := rfl

theorem IsNil_false_of_valid {s : Store O} {r : Ref} (hv : refValid s r) :
    r.IsNil = false := by
  obtain ⟨h1, _, _, _⟩ := hv
  unfold Ref.IsNil
  have : r.chunk ≠ 0 := by omega
  simp [this]

theorem ne_nil_of_valid {s : Store O} {r : Ref} (hv : refValid s r) : r ≠ Ref.nil := by
  obtain ⟨h1, _, _, _⟩ := hv
  intro h
  rw [h] at h1
  simp [Ref.nil] at h1

theorem setMeta_objects (s : Store O) (r : Ref) (m : MetaRec) :
    (setMeta s r m).objects = s.objects := by
  unfold setMeta
  cases s.meta[sub1u32 r.chunk]? <;> rfl

theorem setMeta_allocs (s : Store O) (r : Ref) (m : MetaRec) :
    (setMeta s r m).allocs = s.allocs := by
  unfold setMeta; cases s.meta[sub1u32 r.chunk]? <;> rfl

theorem setMeta_frees (s : Store O) (r : Ref) (m : MetaRec) :
    (setMeta s r m).frees = s.frees := by
  unfold setMeta; cases s.meta[sub1u32 r.chunk]? <;> rfl

theorem setMeta_reused (s : Store O) (r : Ref) (m : MetaRec) :
    (setMeta s r m).reused = s.reused := by
  unfold setMeta; cases s.meta[sub1u32 r.chunk]? <;> rfl

theorem setMeta_offsetF (s : Store O) (r : Ref) (m : MetaRec) :
    (setMeta s r m).offset = s.offset := by
  unfold setMeta; cases s.meta[sub1u32 r.chunk]? <;> rfl

theorem setMeta_rootFree (s : Store O) (r : Ref) (m : MetaRec) :
    (setMeta s r m).rootFree = s.rootFree := by
  unfold setMeta; cases s.meta[sub1u32 r.chunk]? <;> rfl

theorem setMeta_chunkSizeF (s : Store O) (r : Ref) (m : MetaRec) :
    (setMeta s r m).chunkSize = s.chunkSize := by
  unfold setMeta; cases s.meta[sub1u32 r.chunk]? <;> rfl

theorem setMeta_meta_length (s : Store O) (r : Ref) (m : MetaRec) :
    (setMeta s r m).meta.length = s.meta.length := by
  unfold setMeta
  cases h : s.meta[sub1u32 r.chunk]? with
  | none => rfl
  | some ch => simp [List.length_set]

theorem getObject?_setMeta (s : Store O) (r r' : Ref) (m : MetaRec) :
    getObject? (setMeta s r m) r' = getObject? s r' := by
  unfold getObject?
  rw [setMeta_objects]

theorem refValid_setMeta (s : Store O) (r r' : Ref) (m : MetaRec) :
    refValid (setMeta s r m) r' ↔ refValid s r' := by
  unfold refValid
  rw [setMeta_meta_length]

theorem Shape_setMeta {s : Store O} (hs : Shape s) (r : Ref) (m : MetaRec) :
    Shape (setMeta s r m) := by
  refine ⟨?_, ?_, ?_, ?_, ?_, ?_⟩
  · rw [setMeta_chunkSizeF]; exact hs.chunkSize_eq
  · intro ch hch
    unfold setMeta at hch
    cases h : s.meta[sub1u32 r.chunk]? with
    | none => rw [h] at hch; exact hs.meta_shape ch hch
    | some ch0 =>
      rw [h] at hch
      simp only at hch
      rcases List.mem_or_eq_of_mem_set hch with hmem | heq
      · exact hs.meta_shape ch hmem
      · rw [heq, List.length_set]
        exact hs.meta_shape ch0 (List.getElem?_mem h)
  · rw [setMeta_objects]; exact hs.obj_shape
  · rw [setMeta_meta_length, setMeta_objects]; exact hs.len_eq
  · rw [setMeta_meta_length]; exact hs.len_pos
  · rw [setMeta_meta_length]; exact hs.len_lt

theorem getMeta?_setMeta_self {s : Store O} {r : Ref} {m0 : MetaRec}
    (h : getMeta? s r = some m0) (m : MetaRec) :
    getMeta? (setMeta s r m) r = some m := by
  unfold getMeta? at h
  obtain ⟨ch, hch, hinner⟩ : ∃ ch, s.meta[sub1u32 r.chunk]? = some ch ∧
      ch[sub1u32 r.offset]? = some m0 := by
    cases hch : s.meta[sub1u32 r.chunk]? with
    | none => rw [hch] at h; simp at h
    | some ch => rw [hch] at h; exact ⟨ch, rfl, h⟩
  have hcl : sub1u32 r.chunk < s.meta.length := by
    by_contra hge
    rw [List.getElem?_eq_none (by omega)] at hch
    simp at hch
  have hol : sub1u32 r.offset < ch.length := by
    by_contra hge
    rw [List.getElem?_eq_none (by omega)] at hinner
    simp at hinner
  unfold getMeta? setMeta
  rw [hch]
  dsimp only
  rw [List.getElem?_set_self hcl]
  dsimp only [Option.some_bind]
  rw [List.getElem?_set_self (by simpa using hol)]

theorem getMeta?_setMeta_ne {s : Store O} {r r' : Ref} (m : MetaRec)
    (hne : sub1u32 r.chunk ≠ sub1u32 r'.chunk ∨ sub1u32 r.offset ≠ sub1u32 r'.offset) :
    getMeta? (setMeta s r m) r' = getMeta? s r' := by
  unfold getMeta? setMeta
  cases hch : s.meta[sub1u32 r.chunk]? with
  | none => rfl
  | some ch =>
    dsimp only
    rcases hne with hc | ho
    · rw [List.getElem?_set_ne hc]
    · by_cases hcc : sub1u32 r.chunk = sub1u32 r'.chunk
      · rw [← hcc, List.getElem?_set_self (by
          by_contra hge
          rw [List.getElem?_eq_none (by omega)] at hch
          simp at hch), hcc, ← hcc, hch]
        dsimp only [Option.some_bind]
        rw [List.getElem?_set_ne ho]
      · rw [List.getElem?_set_ne hcc]

/-- Stores with the same metadata look the same to getMeta. -/
theorem getMeta?_congr {s s' : Store O} (h : s'.meta = s.meta) (r : Ref) :
    getMeta? s' r = getMeta? s r := by
  unfold getMeta?
  rw [h]

theorem flChain_of_agree {s s' : Store O} {fl : List Ref}
    (h : ∀ x ∈ fl, getMeta? s' x = getMeta? s x) (hc : flChain s fl) :
    flChain s' fl := by
  induction fl with
  | nil => trivial
  | cons a t ih =>
    cases t with
    | nil =>
      unfold flChain at hc ⊢
      rw [h a (by simp)]
      exact hc
    | cons b t' =>
      obtain ⟨h1, h2⟩ := hc
      exact ⟨by rw [h a (by simp)]; exact h1,
        ih (fun x hx => h x (List.mem_cons_of_mem a hx)) h2⟩

/-- Every free-list member carries a non-nil nextFree pointer. -/
theorem chain_nextFree_ne_nil {s : Store O} {fl : List Ref}
    (hch : flChain s fl) (hv : ∀ r ∈ fl, refValid s r) :
    ∀ r ∈ fl, ∃ m, getMeta? s r = some m ∧ m.nextFree ≠ Ref.nil := by
  induction fl with
  | nil => intro r hr; simp at hr
  | cons a t ih =>
    intro r hr
    cases t with
    | nil =>
      unfold flChain at hch
      simp at hr
      subst hr
      exact ⟨⟨r⟩, hch, ne_nil_of_valid (hv r (by simp))⟩
    | cons b t' =>
      obtain ⟨h1, h2⟩ := hch
      rcases List.mem_cons.mp hr with heq | hmem
      · subst heq
        exact ⟨⟨b⟩, h1, ne_nil_of_valid (hv b (by simp))⟩
      · exact ih h2 (fun x hx => hv x (List.mem_cons_of_mem a hx)) r hmem

/-- A WF store's free-list root is nil exactly when the free list is empty. -/
theorem WF_root_nil_iff {s : Store O} {fl : List Ref} (h : WF s fl) :
    s.rootFree.IsNil = true ↔ fl = [] := by
  constructor
  · intro hnil
    cases fl with
    | nil => rfl
    | cons a t =>
      exfalso
      have := h.root_eq
      simp at this
      rw [this] at hnil
      rw [IsNil_false_of_valid (h.valid a (by simp))] at hnil
      simp at hnil
  · intro hfl
    subst hfl
    have := h.root_eq
    simp at this
    rw [this]
    rfl

theorem IsNil_iff {r : Ref} : r.IsNil = true ↔ r = Ref.nil := by
  cases r with
  | mk c o => simp [Ref.IsNil, Ref.nil, Ref.mk.injEq]

theorem refValid_congr {s s' : Store O} (h : s'.meta.length = s.meta.length) (r : Ref) :
    refValid s' r ↔ refValid s r := by
  unfold refValid
  rw [h]

/-- A Free call that fails (panics) leaves the store exactly as it was. -/
theorem Free_fail_eq (s : Store O) (r : Ref) (h : (Free s r).2 = false) :
    (Free s r).1 = s := by
  unfold Free at h ⊢
  cases hm : getMeta? s r with
  | none => rfl
  | some m =>
    by_cases hn : m.nextFree.IsNil
    · exfalso
      simp [hm, hn] at h
    · simp [hm, hn]

/-- Free on a live slot takes the success path, with the resulting state
written out explicitly. -/
theorem Free_eq_of_live {s : Store O} {r : Ref} {m : MetaRec}
    (hm : getMeta? s r = some m) (hnil : m.nextFree = Ref.nil) :
    Free s r =
      ({ setMeta { s with frees := s.frees + 1 } r
          (if s.rootFree.IsNil then ⟨r⟩ else ⟨s.rootFree⟩) with rootFree := r }, true) := by
  unfold Free
  rw [hm]
  dsimp only
  rw [hnil]
  rfl

/-- Freeing a live slot of a WF store succeeds and pushes the slot onto the
free list; the rest of the state is as before except the frees counter and
the target slot's metadata. -/
theorem WF_free {s : Store O} {fl : List Ref} {r : Ref} (h : WF s fl) (hrwf : r.wf)
    {m : MetaRec} (hm : getMeta? s r = some m) (hnil : m.nextFree = Ref.nil) :
    ∃ s', Free s r = (s', true) ∧ WF s' (r :: fl) ∧
      s'.allocs = s.allocs ∧ s'.frees = s.frees + 1 ∧ s'.reused = s.reused ∧
      s'.offset = s.offset ∧ s'.rootFree = r ∧
      s'.meta.length = s.meta.length ∧ s'.objects = s.objects ∧
      getMeta? s' r = some (if s.rootFree.IsNil then ⟨r⟩ else ⟨s.rootFree⟩) ∧
      (∀ x, refValid s x → x ≠ r → getMeta? s' x = getMeta? s x) := by
  have hvalid : refValid s r := refValid_of_getMeta h.shape hrwf hm
  have hnotin : r ∉ fl := by
    intro hin
    obtain ⟨m2, hm2, hne⟩ := chain_nextFree_ne_nil h.chain h.valid r hin
    rw [hm] at hm2
    apply hne
    injection hm2 with hm2
    rw [← hm2, hnil]
  set m' : MetaRec := if s.rootFree.IsNil then ⟨r⟩ else ⟨s.rootFree⟩ with hmdef
  set s1 : Store O := { s with frees := s.frees + 1 } with hs1
  set s2 : Store O := setMeta s1 r m' with hs2
  set s' : Store O := { s2 with rootFree := r } with hs'
  have hm1 : getMeta? s1 r = some m := hm
  have hshape1 : Shape s1 :=
    ⟨h.shape.chunkSize_eq, h.shape.meta_shape, h.shape.obj_shape,
      h.shape.len_eq, h.shape.len_pos, h.shape.len_lt⟩
  have hshape2 : Shape s2 := Shape_setMeta hshape1 r m'
  have hshape' : Shape s' :=
    ⟨hshape2.chunkSize_eq, hshape2.meta_shape, hshape2.obj_shape,
      hshape2.len_eq, hshape2.len_pos, hshape2.len_lt⟩
  have hlen' : s'.meta.length = s.meta.length := setMeta_meta_length s1 r m'
  have hallocs' : s'.allocs = s.allocs := setMeta_allocs s1 r m'
  have hfrees' : s'.frees = s.frees + 1 := setMeta_frees s1 r m'
  have hreused' : s'.reused = s.reused := setMeta_reused s1 r m'
  have hoffset' : s'.offset = s.offset := setMeta_offsetF s1 r m'
  have hobjects' : s'.objects = s.objects := setMeta_objects s1 r m'
  have hget_self : getMeta? s' r = some m' := getMeta?_setMeta_self hm1 m'
  have hget_other : ∀ x, refValid s x → x ≠ r → getMeta? s' x = getMeta? s x := by
    intro x hx hne
    exact getMeta?_setMeta_ne m' (index_inj hshape1 hvalid hx (fun hh => hne hh.symm))
  have hvalid_iff : ∀ x, refValid s' x ↔ refValid s x := fun x => refValid_congr hlen' x
  have hraw : rawAllocs s' = rawAllocs s := by
    unfold rawAllocs
    rw [hallocs', hreused']
  have hchain' : flChain s' (r :: fl) := by
    cases fl with
    | nil =>
      have hroot : s.rootFree.IsNil = true := (WF_root_nil_iff h).mpr rfl
      show getMeta? s' r = some ⟨r⟩
      rw [hget_self, hmdef, hroot]
      simp
    | cons a t =>
      have hroota : s.rootFree = a := by
        have := h.root_eq
        simpa using this
      have hnn : s.rootFree.IsNil = false := by
        rw [hroota]
        exact IsNil_false_of_valid (h.valid a (by simp))
      have hma : m' = ⟨a⟩ := by
        rw [hmdef, hnn, hroota]
        simp
      refine ⟨by rw [hget_self, hma], ?_⟩
      refine flChain_of_agree (fun x hx => ?_) h.chain
      refine hget_other x (h.valid x hx) (fun he => hnotin ?_)
      rw [← he]
      exact hx
  refine ⟨s', Free_eq_of_live hm hnil, ?_, hallocs', hfrees', hreused', hoffset',
    rfl, hlen', hobjects', hget_self, hget_other⟩
  refine ⟨hshape', ?_, ?_, ?_, ?_, List.Nodup.cons hnotin h.nodup, ?_, hchain', ?_⟩
  · rw [hallocs', hreused']
    exact h.reused_le
  · rw [hlen', hraw]
    exact h.chunks_eq
  · rw [hoffset', hraw]
    exact h.offset_eq
  · simp
  · intro x hx
    rcases List.mem_cons.mp hx with heq | hmem
    · subst heq
      exact (hvalid_iff x).mpr hvalid
    · exact (hvalid_iff x).mpr (h.valid x hmem)
  · intro x hx hxnot
    have hxs : refValid s x := (hvalid_iff x).mp hx
    have hxner : x ≠ r := fun he => hxnot (he ▸ List.mem_cons_self r fl)
    rw [hget_other x hxs hxner]
    exact h.live_nil x hxs (fun hmem => hxnot (List.mem_cons_of_mem r hmem))

/-- With a non-empty free list, Alloc counts the allocation and the reuse and
delegates to allocFromFree. -/
theorem Alloc_eq_free_path {O : Type} [Inhabited O] {s : Store O}
    (hnn : s.rootFree.IsNil = false) :
    Alloc s = allocFromFree { s with allocs := s.allocs + 1, reused := s.reused + 1 } := by
  unfold Alloc
  simp only [show ({ s with allocs := s.allocs + 1 } : Store O).rootFree.IsNil = false
    from hnn, Bool.false_eq_true, if_false]

/-- With an empty free list, Alloc counts the allocation and delegates to
allocFromOffset. -/
theorem Alloc_eq_offset_path {O : Type} [Inhabited O] {s : Store O}
    (hnn : s.rootFree.IsNil = true) :
    Alloc s = some (allocFromOffset { s with allocs := s.allocs + 1 }) := by
  unfold Alloc
  simp only [show ({ s with allocs := s.allocs + 1 } : Store O).rootFree.IsNil = true
    from hnn, if_true]

/-- allocFromFree written out: the root is popped, its nextFree cleared, and
the root advances, with the self-link collapsing to nil. -/
theorem allocFromFree_eq {O : Type} {s : Store O} {m : MetaRec}
    (hm : getMeta? s s.rootFree = some m) :
    allocFromFree s = some
      (if m.nextFree = s.rootFree
        then { setMeta s s.rootFree ⟨Ref.nil⟩ with rootFree := Ref.nil }
        else { setMeta s s.rootFree ⟨Ref.nil⟩ with rootFree := m.nextFree },
       s.rootFree) := by
  simp only [allocFromFree, hm]

/-- Allocating from a WF store with a non-empty free list pops the head of
the free list and returns it; no object values change and no chunk is added. -/
theorem WF_alloc_reuse {O : Type} [Inhabited O] {s : Store O} {a : Ref} {t : List Ref}
    (h : WF s (a :: t)) :
    ∃ s', Alloc s = some (s', a) ∧ WF s' t ∧
      s'.allocs = s.allocs + 1 ∧ s'.frees = s.frees ∧ s'.reused = s.reused + 1 ∧
      s'.offset = s.offset ∧ s'.meta.length = s.meta.length ∧ s'.objects = s.objects ∧
      getMeta? s' a = some ⟨Ref.nil⟩ ∧
      (∀ x, refValid s x → x ≠ a → getMeta? s' x = getMeta? s x) := by
  have hav : refValid s a := h.valid a (List.mem_cons_self a t)
  have hroot : s.rootFree = a := by simpa using h.root_eq
  have hnn : a.IsNil = false := IsNil_false_of_valid hav
  have hanotint : a ∉ t := (List.nodup_cons.mp h.nodup).1
  obtain ⟨nx, hm, hnx⟩ : ∃ nx, getMeta? s a = some ⟨nx⟩ ∧
      ((t = [] ∧ nx = a) ∨ ∃ b t', t = b :: t' ∧ nx = b ∧ nx ≠ a) := by
    cases t with
    | nil => exact ⟨a, h.chain, Or.inl ⟨rfl, rfl⟩⟩
    | cons b t' =>
      refine ⟨b, h.chain.1, Or.inr ⟨b, t', rfl, rfl, fun he => hanotint ?_⟩⟩
      rw [← he]
      exact List.mem_cons_self b t'
  set S2 : Store O := { s with allocs := s.allocs + 1, reused := s.reused + 1 } with hS2
  set s' : Store O :=
    { setMeta S2 a ⟨Ref.nil⟩ with rootFree := (t.head?).getD Ref.nil } with hs'
  have hm2 : getMeta? S2 a = some ⟨nx⟩ := hm
  have hnn2 : s.rootFree.IsNil = false := by
    rw [hroot]
    exact hnn
  have hmroot : getMeta? S2 S2.rootFree = some ⟨nx⟩ := by
    show getMeta? S2 s.rootFree = some ⟨nx⟩
    rw [hroot]
    exact hm2
  have heq0 := (Alloc_eq_free_path hnn2).trans (allocFromFree_eq hmroot)
  have hrootS2 : S2.rootFree = a := hroot
  rw [hrootS2] at heq0
  have heq : Alloc s = some (s', a) := by
    rcases hnx with ⟨ht, hna⟩ | ⟨b, t', ht, hnb, hne⟩
    · subst ht
      rw [if_pos hna] at heq0
      exact heq0
    · subst ht
      subst hnb
      rw [if_neg hne] at heq0
      exact heq0
  have hshape2 : Shape S2 :=
    ⟨h.shape.chunkSize_eq, h.shape.meta_shape, h.shape.obj_shape,
      h.shape.len_eq, h.shape.len_pos, h.shape.len_lt⟩
  have hshape3 : Shape (setMeta S2 a ⟨Ref.nil⟩) := Shape_setMeta hshape2 a ⟨Ref.nil⟩
  have hshape' : Shape s' :=
    ⟨hshape3.chunkSize_eq, hshape3.meta_shape, hshape3.obj_shape,
      hshape3.len_eq, hshape3.len_pos, hshape3.len_lt⟩
  have hlen' : s'.meta.length = s.meta.length := setMeta_meta_length S2 a ⟨Ref.nil⟩
  have hallocs' : s'.allocs = s.allocs + 1 := setMeta_allocs S2 a ⟨Ref.nil⟩
  have hfrees' : s'.frees = s.frees := setMeta_frees S2 a ⟨Ref.nil⟩
  have hreused' : s'.reused = s.reused + 1 := setMeta_reused S2 a ⟨Ref.nil⟩
  have hoffset' : s'.offset = s.offset := setMeta_offsetF S2 a ⟨Ref.nil⟩
  have hobjects' : s'.objects = s.objects := setMeta_objects S2 a ⟨Ref.nil⟩
  have hraw : rawAllocs s' = rawAllocs s := by
    unfold rawAllocs
    rw [hallocs', hreused']
    omega
  have hget_self : getMeta? s' a = some ⟨Ref.nil⟩ := getMeta?_setMeta_self hm2 ⟨Ref.nil⟩
  have hget_other : ∀ x, refValid s x → x ≠ a → getMeta? s' x = getMeta? s x := by
    intro x hx hne
    exact getMeta?_setMeta_ne ⟨Ref.nil⟩ (index_inj hshape2 hav hx (fun hh => hne hh.symm))
  have hvalid_iff : ∀ x, refValid s' x ↔ refValid s x := fun x => refValid_congr hlen' x
  refine ⟨s', heq, ?_, hallocs', hfrees', hreused', hoffset', hlen', hobjects',
    hget_self, hget_other⟩
  refine ⟨hshape', ?_, ?_, ?_, rfl, (List.nodup_cons.mp h.nodup).2, ?_, ?_, ?_⟩
  · rw [hallocs', hreused']
    exact Nat.succ_le_succ h.reused_le
  · rw [hlen', hraw]
    exact h.chunks_eq
  · rw [hoffset', hraw]
    exact h.offset_eq
  · intro x hx
    exact (hvalid_iff x).mpr (h.valid x (List.mem_cons_of_mem a hx))
  · cases t with
    | nil => trivial
    | cons b t' =>
      refine flChain_of_agree (fun x hx => ?_) h.chain.2
      refine hget_other x (h.valid x (List.mem_cons_of_mem a hx)) (fun he => hanotint ?_)
      rw [← he]
      exact hx
  · intro x hx hxnot
    have hxs : refValid s x := (hvalid_iff x).mp hx
    by_cases hxa : x = a
    · subst hxa
      exact hget_self
    · rw [hget_other x hxs hxa]
      refine h.live_nil x hxs (fun hmem => ?_)
      rcases List.mem_cons.mp hmem with he | hmem2
      · exact hxa he
      · exact hxnot hmem2

/-- allocFromOffset written out. -/
theorem allocFromOffset_eq {O : Type} (s : Store O) [Inhabited O] :
    allocFromOffset s =
      (if (s.offset + 1) % U32 = s.chunkSize then
        { s with
          meta := s.meta ++ [List.replicate s.chunkSize MetaRec.zero]
          objects := s.objects ++ [List.replicate s.chunkSize default]
          offset := 0 }
      else { s with offset := (s.offset + 1) % U32 },
      (⟨s.objects.length % U32, (s.offset + 1) % U32⟩ : Ref)) := rfl

/-- Allocating from a WF store with an empty free list returns the bump
slot; the existing metadata and object values are untouched. -/
theorem WF_alloc_offset {O : Type} [Inhabited O] {s : Store O} (h : WF s [])
    (hb : s.meta.length + 1 < U32) :
    ∃ s' r, Alloc s = some (s', r) ∧ WF s' [] ∧
      s'.allocs = s.allocs + 1 ∧ s'.frees = s.frees ∧ s'.reused = s.reused ∧
      s.meta.length ≤ s'.meta.length ∧ s'.meta.length ≤ s.meta.length + 1 ∧
      refValid s r ∧ getMeta? s' r = some ⟨Ref.nil⟩ ∧
      r = ⟨s.meta.length, rawAllocs s % objectChunkSize + 1⟩ ∧
      (∀ x, refValid s x → getMeta? s' x = getMeta? s x) ∧
      (∀ x, refValid s x → getObject? s' x = getObject? s x) := by
  have hrootnil : s.rootFree.IsNil = true := (WF_root_nil_iff h).mpr rfl
  have hcs : s.chunkSize = objectChunkSize := h.shape.chunkSize_eq
  have hlenobj : s.objects.length = s.meta.length := h.shape.len_eq.symm
  have hlenlt : s.meta.length < U32 := h.shape.len_lt
  have hofflt : s.offset < objectChunkSize := by
    rw [h.offset_eq]
    exact Nat.mod_lt _ (by norm_num [objectChunkSize])
  have hoffmod : (s.offset + 1) % U32 = s.offset + 1 := by
    apply Nat.mod_eq_of_lt
    rw [U32_eq]
    simp only [objectChunkSize] at hofflt
    omega
  have hchunkmod : s.objects.length % U32 = s.meta.length := by
    rw [hlenobj]
    exact Nat.mod_eq_of_lt hlenlt
  have heq0 := Alloc_eq_offset_path hrootnil
  rw [allocFromOffset_eq ({ s with allocs := s.allocs + 1 } : Store O)] at heq0
  have hproj1 : ({ s with allocs := s.allocs + 1 } : Store O).offset = s.offset := rfl
  have hproj2 : ({ s with allocs := s.allocs + 1 } : Store O).chunkSize = s.chunkSize := rfl
  rw [hproj1, hproj2, hoffmod, hchunkmod] at heq0
  have hrvalid : refValid s ⟨s.meta.length, s.offset + 1⟩ := by
    refine ⟨h.shape.len_pos, Nat.le_refl _, Nat.succ_le_succ (Nat.zero_le _), ?_⟩
    show s.offset + 1 ≤ objectChunkSize
    omega
  have hrformula : (⟨s.meta.length, s.offset + 1⟩ : Ref) =
      ⟨s.meta.length, rawAllocs s % objectChunkSize + 1⟩ := by
    rw [← h.offset_eq]
  have hrmeta : getMeta? s ⟨s.meta.length, s.offset + 1⟩ = some ⟨Ref.nil⟩ :=
    h.live_nil _ hrvalid (by simp)
  by_cases hcond : s.offset + 1 = s.chunkSize
  · -- the current chunk fills: a fresh chunk is appended
    rw [if_pos hcond] at heq0
    refine ⟨_, _, heq0, ?_, rfl, rfl, rfl, by simp, by simp, hrvalid, ?_, hrformula, ?_, ?_⟩
    case _ =>
      -- WF of the appended store, free list still empty
      refine ⟨?_, ?_, ?_, ?_, ?_, List.nodup_nil, ?_, trivial, ?_⟩
      · refine ⟨hcs, ?_, ?_, ?_, ?_, ?_⟩
        · intro ch hch
          rcases List.mem_append.mp hch with hmem | hnew
          · exact h.shape.meta_shape ch hmem
          · simp at hnew
            rw [hnew]
            simp [hcs]
        · intro ch hch
          rcases List.mem_append.mp hch with hmem | hnew
          · exact h.shape.obj_shape ch hmem
          · simp at hnew
            rw [hnew]
            simp [hcs]
        · show (s.meta ++ _).length = (s.objects ++ _).length
          simp [hlenobj]
        · show 0 < (s.meta ++ _).length
          simp
        · show (s.meta ++ _).length < U32
          simp
          omega
      · show s.reused ≤ s.allocs + 1
        have := h.reused_le
        omega
      · show (s.meta ++ _).length = 1 + (s.allocs + 1 - s.reused) / objectChunkSize
        have hc := h.chunks_eq
        have ho := h.offset_eq
        have hr := h.reused_le
        rw [hcs] at hcond
        unfold rawAllocs at hc ho
        simp only [objectChunkSize] at *
        simp only [List.length_append, List.length_cons, List.length_nil]
        omega
      · show (0 : Nat) = (s.allocs + 1 - s.reused) % objectChunkSize
        have ho := h.offset_eq
        have hr := h.reused_le
        rw [hcs] at hcond
        unfold rawAllocs at ho
        simp only [objectChunkSize] at *
        omega
      · show s.rootFree = Ref.nil
        exact IsNil_iff.mp hrootnil
      · intro x hx
        simp at hx
      · intro x hx hxnot
        obtain ⟨hx1, hx2, hx3, hx4⟩ := hx
        simp only [List.length_append, List.length_cons, List.length_nil] at hx2
        by_cases hxold : x.chunk ≤ s.meta.length
        · have hxs : refValid s x := ⟨hx1, hxold, hx3, hx4⟩
          have hstep : getMeta? { s with
              allocs := s.allocs + 1
              meta := s.meta ++ [List.replicate s.chunkSize MetaRec.zero]
              objects := s.objects ++ [List.replicate s.chunkSize default]
              offset := 0 } x = getMeta? s x := by
            show ((s.meta ++ [List.replicate s.chunkSize MetaRec.zero])[sub1u32 x.chunk]?).bind
                (fun ch => ch[sub1u32 x.offset]?) = getMeta? s x
            rw [List.getElem?_append_left (by
              rw [sub1u32_of_pos hx1 (by omega)]
              omega)]
            rfl
          rw [hstep]
          exact h.live_nil x hxs (by simp)
        · have hxc : x.chunk = s.meta.length + 1 := by omega
          show ((s.meta ++ [List.replicate s.chunkSize MetaRec.zero])[sub1u32 x.chunk]?).bind
              (fun ch => ch[sub1u32 x.offset]?) = some ⟨Ref.nil⟩
          rw [sub1u32_of_pos hx1 (by omega), hxc]
          rw [List.getElem?_append_right (by omega)]
          have hsub : s.meta.length + 1 - 1 - s.meta.length = 0 := by omega
          rw [hsub]
          simp only [List.getElem?_cons_zero, Option.some_bind]
          rw [sub1u32_of_pos hx3 (by
            rw [U32_eq]
            simp only [objectChunkSize] at hx4
            omega)]
          rw [List.getElem?_replicate]
          rw [if_pos (by
            rw [hcs]
            simp only [objectChunkSize] at hx4 ⊢
            omega)]
          rfl
    case _ =>
      -- metadata of the returned reference after the append
      have hstep : getMeta? { s with
          allocs := s.allocs + 1
          meta := s.meta ++ [List.replicate s.chunkSize MetaRec.zero]
          objects := s.objects ++ [List.replicate s.chunkSize default]
          offset := 0 } ⟨s.meta.length, s.offset + 1⟩ =
          getMeta? s ⟨s.meta.length, s.offset + 1⟩ := by
        show ((s.meta ++ [List.replicate s.chunkSize MetaRec.zero])[sub1u32 s.meta.length]?).bind
            (fun ch => ch[sub1u32 (s.offset + 1)]?) = _
        rw [List.getElem?_append_left (by
          rw [sub1u32_of_pos h.shape.len_pos (by omega)]
          have := h.shape.len_pos
          omega)]
        rfl
      rw [hstep]
      exact hrmeta
    case _ =>
      intro x hx
      obtain ⟨hx1, hx2, hx3, hx4⟩ := hx
      show ((s.meta ++ [List.replicate s.chunkSize MetaRec.zero])[sub1u32 x.chunk]?).bind
          (fun ch => ch[sub1u32 x.offset]?) = getMeta? s x
      rw [List.getElem?_append_left (by
        rw [sub1u32_of_pos hx1 (by omega)]
        omega)]
      rfl
    case _ =>
      intro x hx
      obtain ⟨hx1, hx2, hx3, hx4⟩ := hx
      show ((s.objects ++ [List.replicate s.chunkSize default])[sub1u32 x.chunk]?).bind
          (fun ch => ch[sub1u32 x.offset]?) = getObject? s x
      rw [List.getElem?_append_left (by
        rw [sub1u32_of_pos hx1 (by omega), hlenobj]
        omega)]
      rfl
  · -- room remains in the current chunk
    rw [if_neg hcond] at heq0
    refine ⟨_, _, heq0, ?_, rfl, rfl, rfl, Nat.le_refl _, Nat.le_succ _, hrvalid,
      hrmeta, hrformula, fun x _ => rfl, fun x _ => rfl⟩
    refine ⟨?_, ?_, ?_, ?_, ?_, List.nodup_nil, ?_, trivial, ?_⟩
    · exact ⟨hcs, h.shape.meta_shape, h.shape.obj_shape, h.shape.len_eq,
        h.shape.len_pos, h.shape.len_lt⟩
    · show s.reused ≤ s.allocs + 1
      have := h.reused_le
      omega
    · show s.meta.length = 1 + (s.allocs + 1 - s.reused) / objectChunkSize
      have hc := h.chunks_eq
      have ho := h.offset_eq
      have hr := h.reused_le
      rw [hcs] at hcond
      unfold rawAllocs at hc ho
      simp only [objectChunkSize] at *
      omega
    · show s.offset + 1 = (s.allocs + 1 - s.reused) % objectChunkSize
      have ho := h.offset_eq
      have hr := h.reused_le
      rw [hcs] at hcond
      unfold rawAllocs at ho
      simp only [objectChunkSize] at *
      omega
    · show s.rootFree = Ref.nil
      exact IsNil_iff.mp hrootnil
    · intro x hx
      simp at hx
    · intro x hx hxnot
      exact h.live_nil x hx (by simp)

/-- A Free that succeeds was applied to a slot whose metadata had a nil
nextFree pointer. -/
theorem Free_success_inv {s : Store O} {r : Ref} (h : (Free s r).2 = true) :
    ∃ m, getMeta? s r = some m ∧ m.nextFree = Ref.nil := by
  unfold Free at h
  cases hm : getMeta? s r with
  | none =>
    rw [hm] at h
    simp at h
  | some m =>
    rw [hm] at h
    by_cases hn : m.nextFree.IsNil
    · exact ⟨m, rfl, IsNil_iff.mp hn⟩
    · exfalso
      simp [hn] at h

/-- One step of any operation preserves WF, for states whose chunk list can
still grow within uint32 range; the alloc counter grows by at most one. -/
theorem step_WF {O : Type} [Inhabited O] {s : Store O} {fl : List Ref}
    (h : WF s fl) (op : Op) (hop : op.wf) (hb : s.meta.length + 1 < U32) :
    ∃ fl', WF (step s op) fl' ∧ (step s op).allocs ≤ s.allocs + 1 := by
  cases op with
  | alloc =>
    cases fl with
    | nil =>
      obtain ⟨s', r, halloc, hwf, hallocs, _⟩ := WF_alloc_offset h hb
      have hstep : step s Op.alloc = s' := by
        unfold step
        rw [halloc]
      rw [hstep]
      exact ⟨[], hwf, le_of_eq hallocs⟩
    | cons a t =>
      obtain ⟨s', halloc, hwf, hallocs, _⟩ := WF_alloc_reuse h
      have hstep : step s Op.alloc = s' := by
        unfold step
        rw [halloc]
      rw [hstep]
      exact ⟨t, hwf, le_of_eq hallocs⟩
  | free r =>
    have hstep : step s (Op.free r) = (Free s r).1 := rfl
    cases hsucc : (Free s r).2 with
    | false =>
      rw [hstep, Free_fail_eq s r hsucc]
      exact ⟨fl, h, Nat.le_succ _⟩
    | true =>
      obtain ⟨m, hm, hnil⟩ := Free_success_inv hsucc
      obtain ⟨s', heq, hwf, hallocs, _⟩ := WF_free h hop hm hnil
      rw [hstep, heq]
      exact ⟨r :: fl, hwf, by rw [hallocs]; exact Nat.le_succ _⟩

/-- Running any uint32-representable sequence of operations from a WF state
lands in a WF state; WF is an invariant of every Alloc and Free sequence. -/
theorem run_WF {O : Type} [Inhabited O] :
    ∀ (ops : List Op) (s : Store O) (fl : List Ref), WF s fl →
      (∀ op ∈ ops, op.wf) → s.allocs + ops.length ≤ 2 ^ 40 →
      ∃ fl', WF (run s ops) fl' ∧ (run s ops).allocs ≤ s.allocs + ops.length := by
  intro ops
  induction ops with
  | nil =>
    intro s fl h _ _
    exact ⟨fl, h, Nat.le_refl _⟩
  | cons op rest ih =>
    intro s fl h hops hb
    have hlenbound : s.meta.length + 1 < U32 := by
      have hc := h.chunks_eq
      have hraw_le : rawAllocs s ≤ s.allocs := Nat.sub_le _ _
      rw [U32_eq]
      simp only [objectChunkSize] at hc
      simp only [List.length_cons] at hb
      omega
    obtain ⟨fl1, hwf1, hal1⟩ := step_WF h op (hops op (List.mem_cons_self op rest)) hlenbound
    have hrun : run s (op :: rest) = run (step s op) rest := rfl
    rw [hrun]
    obtain ⟨fl', hwf', hal'⟩ := ih (step s op) fl1 hwf1
      (fun o ho => hops o (List.mem_cons_of_mem op ho))
      (by simp only [List.length_cons] at hb; omega)
    refine ⟨fl', hwf', ?_⟩
    calc (run (step s op) rest).allocs ≤ (step s op).allocs + rest.length := hal'
    _ ≤ s.allocs + 1 + rest.length := by omega
    _ = s.allocs + (op :: rest).length := by simp [List.length_cons]; omega

/-- The invariant holds of a fresh store, with an empty free list. -/
theorem WF_New (O : Type) [Inhabited O] : WF (New O) [] := by
  refine ⟨⟨rfl, ?_, ?_, ?_, ?_, ?_⟩, Nat.le_refl 0, ?_, ?_, rfl, List.nodup_nil,
    ?_, trivial, ?_⟩
  · intro ch hch
    simp [New] at hch
    simp [hch]
  · intro ch hch
    simp [New] at hch
    simp [hch]
  · rfl
  · simp [New]
  · rw [U32_eq]
    simp [New]
  · show (New O).meta.length = 1 + rawAllocs (New O) / objectChunkSize
    simp [New, rawAllocs]
  · show (New O).offset = rawAllocs (New O) % objectChunkSize
    simp [New, rawAllocs]
  · intro x hx
    simp at hx
  · intro x hx hxnot
    obtain ⟨h1, h2, h3, h4⟩ := hx
    have hlen1 : (New O).meta.length = 1 := by simp [New]
    have hc1 : x.chunk = 1 := by
      rw [hlen1] at h2
      omega
    have hofflt : x.offset - 1 < 1024 := by
      simp only [objectChunkSize] at h4
      omega
    show ((New O).meta[sub1u32 x.chunk]?).bind (fun ch => ch[sub1u32 x.offset]?) =
      some ⟨Ref.nil⟩
    rw [sub1u32_of_pos h1 (by rw [U32_eq]; omega), hc1]
    rw [sub1u32_of_pos h3 (by
      rw [U32_eq]
      simp only [objectChunkSize] at h4
      omega)]
    show ([List.replicate objectChunkSize MetaRec.zero][0]?).bind
      (fun ch => ch[x.offset - 1]?) = some ⟨Ref.nil⟩
    simp only [List.getElem?_cons_zero, Option.some_bind]
    rw [List.getElem?_replicate, if_pos (by simp only [objectChunkSize]; omega)]
    rfl

/-- Get with the returned state made explicit, mirroring the statement order
of the Go source; the Go body of Get contains no store mutation, so every
branch returns the input store. -/
def GetOp (s : Store O) (r : Ref) : Option O × Store O :=
  match getMeta? s r with
  | none => (none, s)
  | some m => if !m.nextFree.IsNil then (none, s) else (getObject? s r, s)

theorem GetOp_fst (s : Store O) (r : Ref) : (GetOp s r).1 = Get? s r := by
  unfold GetOp Get?
  cases getMeta? s r with
  | none => rfl
  | some m =>
    by_cases hn : m.nextFree.IsNil <;> simp [hn]

/-- A successful Get means: the slot resolves, its metadata is live (nil
nextFree) and the object bytes are returned. -/
theorem Get?_inv {s : Store O} {r : Ref} {v : O} (h : Get? s r = some v) :
    ∃ m, getMeta? s r = some m ∧ m.nextFree = Ref.nil ∧ getObject? s r = some v := by
  unfold Get? at h
  cases hm : getMeta? s r with
  | none =>
    rw [hm] at h
    simp at h
  | some m =>
    rw [hm] at h
    by_cases hn : m.nextFree.IsNil
    · refine ⟨m, rfl, IsNil_iff.mp hn, ?_⟩
      simpa [hn] using h
    · simp [hn] at h

theorem Get?_intro {s : Store O} {r : Ref} {v : O}
    (hm : getMeta? s r = some ⟨Ref.nil⟩) (ho : getObject? s r = some v) :
    Get? s r = some v := by
  unfold Get?
  rw [hm]
  dsimp only
  simp only [nil_IsNil, Bool.not_true, Bool.false_eq_true, if_false]
  exact ho

/-- A valid reference always resolves to an object value. -/
theorem getObject?_isSome {s : Store O} {r : Ref} (hs : Shape s) (hv : refValid s r) :
    ∃ v, getObject? s r = some v := by
  obtain ⟨h1, h2, h3, h4⟩ := hv
  have hlt : s.objects.length < U32 := by
    rw [← hs.len_eq]
    exact hs.len_lt
  have hc : sub1u32 r.chunk = r.chunk - 1 := by
    refine sub1u32_of_pos h1 ?_
    rw [← hs.len_eq] at hlt
    omega
  have ho : sub1u32 r.offset = r.offset - 1 := by
    refine sub1u32_of_pos h3 ?_
    rw [U32_eq]
    simp only [objectChunkSize] at h4
    omega
  unfold getObject?
  rw [hc, ho]
  have hcl : r.chunk - 1 < s.objects.length := by
    rw [← hs.len_eq]
    omega
  obtain ⟨ch, hch⟩ : ∃ ch, s.objects[r.chunk - 1]? = some ch :=
    ⟨_, List.getElem?_eq_getElem hcl⟩
  rw [hch]
  have hchlen : ch.length = objectChunkSize := hs.obj_shape ch (List.getElem?_mem hch)
  have hol : r.offset - 1 < ch.length := by
    rw [hchlen]
    simp only [objectChunkSize] at h4 ⊢
    omega
  exact ⟨_, List.getElem?_eq_getElem hol⟩

/-- Stores with the same object lists look the same to getObject. -/
theorem getObject?_congr {s s' : Store O} (h : s'.objects = s.objects) (r : Ref) :
    getObject? s' r = getObject? s r := by
  unfold getObject?
  rw [h]

theorem writeObject_meta (s : Store O) (r : Ref) (v : O) :
    (writeObject s r v).meta = s.meta := by
  unfold writeObject
  cases s.objects[sub1u32 r.chunk]? <;> rfl

/-- Writing an object value through a valid reference and reading it back
through the same reference observes the written value. -/
theorem getObject?_writeObject_self {s : Store O} {r : Ref} (hs : Shape s)
    (hv : refValid s r) (v : O) :
    getObject? (writeObject s r v) r = some v := by
  obtain ⟨v0, hv0⟩ := getObject?_isSome hs hv
  unfold getObject? at hv0
  obtain ⟨ch, hch, hinner⟩ : ∃ ch, s.objects[sub1u32 r.chunk]? = some ch ∧
      ch[sub1u32 r.offset]? = some v0 := by
    cases hch : s.objects[sub1u32 r.chunk]? with
    | none => rw [hch] at hv0; simp at hv0
    | some ch => rw [hch] at hv0; exact ⟨ch, rfl, hv0⟩
  have hcl : sub1u32 r.chunk < s.objects.length := by
    by_contra hge
    rw [List.getElem?_eq_none (by omega)] at hch
    simp at hch
  have hol : sub1u32 r.offset < ch.length := by
    by_contra hge
    rw [List.getElem?_eq_none (by omega)] at hinner
    simp at hinner
  unfold getObject? writeObject
  rw [hch]
  dsimp only
  rw [List.getElem?_set_self hcl]
  dsimp only [Option.some_bind]
  rw [List.getElem?_set_self (by simpa using hol)]

/-- One allocation never disturbs a reference that Get can already read:
the result of Get through any live reference is unchanged. -/
theorem Get?_alloc_stable {O : Type} [Inhabited O] {s : Store O} {fl : List Ref}
    (h : WF s fl) (hb : s.meta.length + 1 < U32)
    {s' : Store O} {r' : Ref} (halloc : Alloc s = some (s', r'))
    {r0 : Ref} {v : O} (hwfr : r0.wf) (hget : Get? s r0 = some v) :
    Get? s' r0 = some v := by
  obtain ⟨m0, hm0, hm0nil, ho0⟩ := Get?_inv hget
  have hvalid0 : refValid s r0 := refValid_of_getMeta h.shape hwfr hm0
  have hm0eq : m0 = ⟨Ref.nil⟩ := by
    cases m0
    simp_all
  cases fl with
  | nil =>
    obtain ⟨s2, r2, halloc2, hwf2, _, _, _, _, _, _, _, _, hgm, hgo⟩ :=
      WF_alloc_offset h hb
    rw [halloc2] at halloc
    injection halloc with halloc
    injection halloc with h1 h2
    subst h1
    refine Get?_intro ?_ ?_
    · rw [hgm r0 hvalid0, hm0, hm0eq]
    · rw [hgo r0 hvalid0]
      exact ho0
  | cons a t =>
    obtain ⟨s2, halloc2, hwf2, _, _, _, _, _, hobj2, hgma, hgother⟩ :=
      WF_alloc_reuse h
    rw [halloc2] at halloc
    injection halloc with halloc
    injection halloc with h1 h2
    subst h1
    have hr0ne : r0 ≠ a := by
      intro heqa
      obtain ⟨ma, hma, hmane⟩ := chain_nextFree_ne_nil h.chain h.valid a
        (List.mem_cons_self a t)
      rw [← heqa, hm0] at hma
      injection hma with hma
      exact hmane (by rw [← hma, hm0nil])
    refine Get?_intro ?_ ?_
    · rw [hgother r0 hvalid0 hr0ne, hm0, hm0eq]
    · rw [getObject?_congr hobj2 r0]
      exact ho0

/-- Any number of further allocations leaves every live reference readable
with its original value: allocation never relocates or overwrites slots. -/
theorem Get?_run_allocs_stable {O : Type} [Inhabited O] :
    ∀ (N : Nat) (s : Store O) (fl : List Ref), WF s fl →
      s.allocs + N ≤ 2 ^ 40 → ∀ {r0 : Ref} {v : O}, r0.wf → Get? s r0 = some v →
      Get? (run s (List.replicate N Op.alloc)) r0 = some v := by
  intro N
  induction N with
  | zero =>
    intro s fl h _ r0 v _ hget
    exact hget
  | succ N ih =>
    intro s fl h hbound r0 v hwfr hget
    have hb : s.meta.length + 1 < U32 := by
      have hc := h.chunks_eq
      have hraw_le : rawAllocs s ≤ s.allocs := Nat.sub_le _ _
      rw [U32_eq]
      simp only [objectChunkSize] at hc
      omega
    have hrepl : List.replicate (N + 1) Op.alloc = Op.alloc :: List.replicate N Op.alloc :=
      List.replicate_succ _ _
    rw [hrepl]
    cases fl with
    | nil =>
      obtain ⟨s', r', halloc, hwf', hallocs', _⟩ := WF_alloc_offset h hb
      have hstep : run s (Op.alloc :: List.replicate N Op.alloc) =
          run s' (List.replicate N Op.alloc) := by
        show run (step s Op.alloc) _ = _
        unfold step
        rw [halloc]
      rw [hstep]
      exact ih s' [] hwf' (by omega) hwfr (Get?_alloc_stable h hb halloc hwfr hget)
    | cons a t =>
      obtain ⟨s', halloc, hwf', hallocs', _⟩ := WF_alloc_reuse h
      have hstep : run s (Op.alloc :: List.replicate N Op.alloc) =
          run s' (List.replicate N Op.alloc) := by
        show run (step s Op.alloc) _ = _
        unfold step
        rw [halloc]
      rw [hstep]
      exact ih s' t hwf' (by omega) hwfr (Get?_alloc_stable h hb halloc hwfr hget)

/-- Round trip: writing through a freshly allocated reference and reading it
back through Get observes the written value. -/
theorem Get?_roundTrip {O : Type} [Inhabited O] {s : Store O} {fl : List Ref}
    (h : WF s fl) (hb : s.meta.length + 1 < U32)
    {s' : Store O} {r : Ref} (halloc : Alloc s = some (s', r)) (v : O) :
    Get? (writeObject s' r v) r = some v := by
  have hfacts : getMeta? s' r = some ⟨Ref.nil⟩ ∧ Shape s' ∧ refValid s' r := by
    cases fl with
    | nil =>
      obtain ⟨s2, r2, halloc2, hwf2, _, _, _, hlel, _, hval, hgm, _⟩ :=
        WF_alloc_offset h hb
      rw [halloc2] at halloc
      injection halloc with halloc
      injection halloc with h1 h2
      subst h1
      subst h2
      refine ⟨hgm, hwf2.shape, ?_⟩
      obtain ⟨a1, a2, a3, a4⟩ := hval
      exact ⟨a1, by omega, a3, a4⟩
    | cons a t =>
      obtain ⟨s2, halloc2, hwf2, _, _, _, _, hlen2, _, hgma, _⟩ :=
        WF_alloc_reuse h
      rw [halloc2] at halloc
      injection halloc with halloc
      injection halloc with h1 h2
      subst h1
      subst h2
      refine ⟨hgma, hwf2.shape, ?_⟩
      exact (refValid_congr hlen2 _).mpr (h.valid _ (List.mem_cons_self a t))
  obtain ⟨hgm, hshape', hvalid'⟩ := hfacts
  refine Get?_intro ?_ (getObject?_writeObject_self hshape' hvalid' v)
  rw [getMeta?_congr (writeObject_meta s' r v) r]
  exact hgm

/-- Free every reference in the list, in order (panics impossible when all
are live). -/
def freeAll (s : Store O) (rs : List Ref) : Store O :=
  rs.foldl (fun s r => (Free s r).1) s

/-- Perform k allocations and collect the returned references in order. -/
def allocK {O : Type} [Inhabited O] : Store O → Nat → Store O × List Ref
  | s, 0 => (s, [])
  | s, k + 1 =>
    match Alloc s with
    | some (s', r) =>
      let p := allocK s' k
      (p.1, r :: p.2)
    | none => (s, [])

/-- Freeing distinct live references pushes them all onto the free list, most
recent first. -/
theorem freeAll_WF {O : Type} [Inhabited O] :
    ∀ (rs : List Ref) (s : Store O) (fl : List Ref), WF s fl → rs.Nodup →
      (∀ r ∈ rs, r.wf ∧ getMeta? s r = some ⟨Ref.nil⟩) →
      WF (freeAll s rs) (rs.reverse ++ fl) := by
  intro rs
  induction rs with
  | nil =>
    intro s fl h _ _
    exact h
  | cons r rs' ih =>
    intro s fl h hnodup hlive
    obtain ⟨hrwf, hrm⟩ := hlive r (List.mem_cons_self r rs')
    obtain ⟨s1, heq, hwf1, _, _, _, _, _, _, _, _, hgother⟩ := WF_free h hrwf hrm rfl
    have hstep : freeAll s (r :: rs') = freeAll s1 rs' := by
      unfold freeAll
      rw [List.foldl_cons, heq]
    rw [hstep]
    have hres := ih s1 (r :: fl) hwf1 (List.nodup_cons.mp hnodup).2 (by
      intro x hx
      obtain ⟨hxwf, hxm⟩ := hlive x (List.mem_cons_of_mem r hx)
      refine ⟨hxwf, ?_⟩
      rw [hgother x (refValid_of_getMeta h.shape hxwf hxm)
        (fun he => (List.nodup_cons.mp hnodup).1 (he ▸ hx))]
      exact hxm)
    have hre : rs'.reverse ++ (r :: fl) = (r :: rs').reverse ++ fl := by
      simp
    rw [← hre]
    exact hres

/-- k allocations from a free list of length at least k return exactly its
first k entries, in order. -/
theorem allocK_pops {O : Type} [Inhabited O] :
    ∀ (k : Nat) (s : Store O) (fl : List Ref), WF s fl → k ≤ fl.length →
      (allocK s k).2 = fl.take k ∧ WF (allocK s k).1 (fl.drop k) := by
  intro k
  induction k with
  | zero =>
    intro s fl h _
    exact ⟨by simp [allocK], by simpa [allocK] using h⟩
  | succ k ih =>
    intro s fl h hk
    cases fl with
    | nil => simp at hk
    | cons a t =>
      obtain ⟨s', halloc, hwf', _⟩ := WF_alloc_reuse h
      have hstep : allocK s (k + 1) = ((allocK s' k).1, a :: (allocK s' k).2) := by
        show (match Alloc s with
          | some (s', r) => ((allocK s' k).1, r :: (allocK s' k).2)
          | none => (s, [])) = _
        rw [halloc]
      obtain ⟨ih1, ih2⟩ := ih s' t hwf' (by simpa using hk)
      rw [hstep]
      constructor
      · show a :: (allocK s' k).2 = (a :: t).take (k + 1)
        rw [ih1]
        simp
      · show WF (allocK s' k).1 ((a :: t).drop (k + 1))
        simpa using ih2

section Pointerstore

/-!
The pointerstore Reference (RefPointer) is exercised by the repository's
tests but its implementation is not under src/; the definitions below are
modelled from the specification (section 4.3 Reference, and the design note
on hidden tag bits): an 8-bit generation is hidden in the top 8 bits of the
64-bit object-address word, accessors mask it out before returning the
address and fail when the stored generation differs from the metadata's
current generation, and realloc bumps the metadata generation and returns a
fresh reference to the same slot.
-/

/-- Modelled from the spec: the per-slot metadata record of the
pointerstore, holding the slot's current 8-bit generation. -/
structure PSMeta where
  gen : Nat
deriving DecidableEq, Repr

/-- Modelled from the spec: metadata memory, a mapping from metadata
addresses to metadata records. -/
def PSHeap : Type := Nat → PSMeta

/-- Modelled from the spec: update one metadata record in place. -/
def psWrite (h : PSHeap) (a : Nat) (m : PSMeta) : PSHeap :=
  fun x => if x = a then m else h x

/-- Modelled from the spec: the pointerstore Reference. dataAddr is the
64-bit object-address word with the generation hidden in its top 8 bits;
metaAddr is the metadata address. -/
structure RefPointer where
  dataAddr : Nat
  metaAddr : Nat
deriving DecidableEq, Repr

/-- The generation tag hidden in the top 8 bits of the address word. -/
def RefPointer.Gen (r : RefPointer) : Nat := r.dataAddr / 2 ^ 56 % 256

/-- The stripped object address the data-pointer accessor returns: the top
8 bits are masked out before the address is handed back. -/
def RefPointer.dataPtrValue (r : RefPointer) : Nat := r.dataAddr % 2 ^ 56

/-- Modelled from the spec: store a new generation tag into the top 8 bits
of the address word, leaving the low 56 address bits unchanged. -/
def RefPointer.setGen (r : RefPointer) (g : Nat) : RefPointer :=
  ⟨r.dataAddr % 2 ^ 56 + g % 256 * 2 ^ 56, r.metaAddr⟩

/-- Modelled from the spec: the data-pointer accessor; fails (UseAfterFree
panic, modelled as none) when the stored generation does not equal the
metadata's current generation, and otherwise returns the masked address. -/
def RefPointer.DataPtr? (h : PSHeap) (r : RefPointer) : Option Nat :=
  if r.Gen = (h r.metaAddr).gen then some r.dataPtrValue else none

/-- Modelled from the spec: the metadata-pointer accessor, with the same
generation check. -/
def RefPointer.metadataPtr? (h : PSHeap) (r : RefPointer) : Option Nat :=
  if r.Gen = (h r.metaAddr).gen then some r.metaAddr else none

/-- Modelled from the spec: NewReference fails (NilConstruction panic) on a
zero address. -/
def NewReference (obj meta : Nat) : Option RefPointer :=
  if obj = 0 ∨ meta = 0 then none else some ⟨obj, meta⟩

/-- Modelled from the spec: Realloc bumps the metadata's generation modulo
256 and returns a new Reference to the same slot carrying the new
generation; the old Reference becomes invalid. -/
def RefPointer.Realloc (h : PSHeap) (r : RefPointer) : PSHeap × RefPointer :=
  let g' := ((h r.metaAddr).gen + 1) % 256
  (psWrite h r.metaAddr ⟨g'⟩, r.setGen g')

theorem dataPtrValue_setGen (r : RefPointer) (g : Nat) :
    (r.setGen g).dataPtrValue = r.dataPtrValue := by
  unfold RefPointer.setGen RefPointer.dataPtrValue
  simp [Nat.add_mul_mod_self_right, Nat.mod_mod_of_dvd]

theorem Gen_setGen (r : RefPointer) (g : Nat) : (r.setGen g).Gen = g % 256 := by
  unfold RefPointer.setGen RefPointer.Gen
  have h1 : r.dataAddr % 2 ^ 56 < 2 ^ 56 := Nat.mod_lt _ (by positivity)
  rw [Nat.add_mul_div_right _ _ (by positivity : (0:Nat) < 2 ^ 56)]
  rw [Nat.div_eq_of_lt h1]
  omega

end Pointerstore

/-- A reference that resolves to a metadata record is not nil: a nil chunk
or offset wraps to index 2^32 - 1, past every chunk. -/
theorem ne_nil_of_getMeta {s : Store O} (hs : Shape s) {r : Ref} {m : MetaRec}
    (h : getMeta? s r = some m) : r ≠ Ref.nil := by
  intro he
  subst he
  unfold getMeta? at h
  rw [show sub1u32 (Ref.nil.chunk) = U32 - 1 from sub1u32_zero] at h
  rw [List.getElem?_eq_none (by
    have := hs.len_lt
    rw [U32_eq] at *
    omega)] at h
  simp at h

/-- Get panics on a slot whose metadata carries a non-nil nextFree. -/
theorem Get?_none_of_freed {s : Store O} {r : Ref} {m : MetaRec}
    (h : getMeta? s r = some m) (hne : m.nextFree ≠ Ref.nil) :
    Get? s r = none := by
  have hb : m.nextFree.IsNil = false := by
    cases hb : m.nextFree.IsNil
    · rfl
    · exact absurd (IsNil_iff.mp hb) hne
  unfold Get?
  rw [h]
  simp [hb]

/-- Free panics, leaving the state unchanged, on a slot whose metadata
carries a non-nil nextFree. -/
theorem Free_panics_of_freed {s : Store O} {r : Ref} {m : MetaRec}
    (h : getMeta? s r = some m) (hne : m.nextFree ≠ Ref.nil) :
    Free s r = (s, false) := by
  have hb : m.nextFree.IsNil = false := by
    cases hb : m.nextFree.IsNil
    · rfl
    · exact absurd (IsNil_iff.mp hb) hne
  unfold Free
  rw [h]
  simp [hb]

/-- After a successful Free, the freed slot's metadata carries a non-nil
nextFree pointer (the free-list link, or the self-sentinel). -/
theorem Free_marks_freed {s : Store O} (hs : Shape s) {r : Ref} {s' : Store O}
    (heq : Free s r = (s', true)) :
    ∃ m', getMeta? s' r = some m' ∧ m'.nextFree ≠ Ref.nil := by
  have hsucc : (Free s r).2 = true := by rw [heq]
  obtain ⟨m, hm, hnil⟩ := Free_success_inv hsucc
  have heq2 := Free_eq_of_live hm hnil
  rw [heq] at heq2
  injection heq2 with heq2 _
  set m' : MetaRec := if s.rootFree.IsNil then ⟨r⟩ else ⟨s.rootFree⟩ with hmdef
  have hm1 : getMeta? ({ s with frees := s.frees + 1 } : Store O) r = some m := hm
  have hself : getMeta? s' r = some m' := by
    rw [heq2]
    exact getMeta?_setMeta_self hm1 m'
  refine ⟨m', hself, ?_⟩
  cases hroot : s.rootFree.IsNil with
  | true =>
    have hmr : m' = ⟨r⟩ := by
      rw [hmdef, hroot]
      simp
    rw [hmr]
    exact ne_nil_of_getMeta hs hm
  | false =>
    have hmr : m' = ⟨s.rootFree⟩ := by
      rw [hmdef, hroot]
      simp
    rw [hmr]
    intro hcontr
    have hrn : s.rootFree = Ref.nil := hcontr
    rw [hrn, nil_IsNil] at hroot
    exact Bool.noConfusion hroot

/-- The Go body of Get mutates nothing: the state after any Get is the
input state, in every branch. -/
theorem GetOp_snd (s : Store O) (r : Ref) : (GetOp s r).2 = s := by
  unfold GetOp
  cases getMeta? s r with
  | none => rfl
  | some m =>
    by_cases hn : (!m.nextFree.IsNil) = true <;> simp [hn]

/-- Spec-level free-list structure: empty with a nil root, or a chain from
the root whose last link is a self-loop, every link non-nil. -/
def freeListOK {O : Type} (s : Store O) : Prop :=
  ∃ fl : List Ref, s.rootFree = (fl.head?).getD Ref.nil ∧ flChain s fl ∧
    (s.rootFree = Ref.nil ↔ fl = []) ∧
    ∀ r ∈ fl, ∃ m, getMeta? s r = some m ∧ m.nextFree ≠ Ref.nil

/-- Concrete scenario for S3: three allocations. -/
def c1s0 : Store Nat := New Nat

def c1A : Store Nat × Ref := (Alloc c1s0).getD (c1s0, Ref.nil)

def c1B : Store Nat × Ref := (Alloc c1A.1).getD (c1s0, Ref.nil)

def c1C : Store Nat × Ref := (Alloc c1B.1).getD (c1s0, Ref.nil)

/-- Free the middle reference B. -/
def c1F : Store Nat × Bool := Free c1C.1 c1B.2

/-- Allocate D after freeing B. -/
def c1D : Store Nat × Ref := (Alloc c1F.1).getD (c1s0, Ref.nil)

/-- Concrete scenario for S5: one allocation, one free, one allocation. -/
def c2s0 : Store Nat := New Nat

def c2A : Store Nat × Ref := (Alloc c2s0).getD (c2s0, Ref.nil)

def c2F : Store Nat × Bool := Free c2A.1 c2A.2

def c2B : Store Nat × Ref := (Alloc c2F.1).getD (c2s0, Ref.nil)

/-- Concrete scenario for use-after-free: alloc, free, realloc, stale get. -/
def c3s0 : Store Nat := New Nat

def c3A : Store Nat × Ref := (Alloc c3s0).getD (c3s0, Ref.nil)

def c3F : Store Nat × Bool := Free c3A.1 c3A.2

def c3R : Store Nat × Ref := (Alloc c3F.1).getD (c3s0, Ref.nil)

/-- Concrete scenario for double free: a single allocation. -/
def c4s0 : Store Nat := New Nat

def c4A : Store Nat × Ref := (Alloc c4s0).getD (c4s0, Ref.nil)

def c4F : Store Nat × Bool := Free c4A.1 c4A.2

/-- C1 counterexample: allocate A, B, C; free B; allocate D. D does occupy
exactly B's slot, but a subsequent Get through the saved reference B
succeeds (returning the re-allocated object) instead of panicking, and the
references of this store carry no generation to bump: the claimed panic
and generation increment are refuted at this input. -/
theorem c1_counterexample :
    c1D.2 = c1B.2 ∧ Get? c1D.1 c1B.2 = some 0 ∧ ¬ Get? c1D.1 c1B.2 = none := by
  refine ⟨by decide, by decide, by decide⟩

/-- C1 (amended): in the free-then-reuse scenario the new allocation D is
exactly the freed reference B (same chunk and offset, hence the same data
pointer) and a Get through the saved B succeeds on the re-allocated object;
in general, freeing k distinct live references and then performing k
allocations returns exactly the freed references, most recently freed
first — every reused slot is drawn from the freed set. References carry no
generation field in this store. -/
theorem c1_free_reuse :
    (c1D.2 = c1B.2 ∧ Get? c1D.1 c1B.2 = some 0) ∧
    ∀ (O : Type) [Inhabited O] (s : Store O) (fl rs : List Ref),
      WF s fl → rs.Nodup → (∀ r ∈ rs, r.wf ∧ getMeta? s r = some ⟨Ref.nil⟩) →
      (allocK (freeAll s rs) rs.length).2 = rs.reverse := by
  constructor
  · exact ⟨by decide, by decide⟩
  · intro O _ s fl rs hwf hnodup hlive
    have h2 := freeAll_WF rs s fl hwf hnodup hlive
    have hlen : rs.length ≤ (rs.reverse ++ fl).length := by simp
    obtain ⟨htake, _⟩ := allocK_pops rs.length (freeAll s rs) (rs.reverse ++ fl) h2 hlen
    rw [htake, show rs.length = rs.reverse.length from (List.length_reverse rs).symm]
    exact List.take_left rs.reverse fl

/-- C1 witness: the amended claim applied at a concrete input — the fresh
store with the single live reference (1,1) freed and re-allocated. -/
theorem c1_free_reuse_witness :
    ([(⟨1, 1⟩ : Ref)].Nodup ∧ (∀ r ∈ [(⟨1, 1⟩ : Ref)], r.wf ∧
      getMeta? (New Nat) r = some ⟨Ref.nil⟩)) ∧
    (allocK (freeAll (New Nat) [⟨1, 1⟩]) 1).2 = [⟨1, 1⟩] := by
  refine ⟨⟨by decide, ?_⟩, ?_⟩
  · intro r hr
    simp at hr
    subst hr
    exact ⟨⟨by decide, by decide⟩, by decide⟩
  · have h := c1_free_reuse.2 Nat (New Nat) [] [⟨1, 1⟩] (WF_New Nat) (by decide) (by
      intro r hr
      simp at hr
      subst hr
      exact ⟨⟨by decide, by decide⟩, by decide⟩)
    simpa using h

/-- C2: after every sequence of Alloc and Free operations the free list is
either empty with a nil root or a chain from the root ending in a
self-link, and every freed slot's nextFree is non-nil; concretely (S5),
freeing a single reference makes it the root with a self-link, and one
further allocation empties the root again with the reused count at 1. -/
theorem c2_freelist_invariant :
    (∀ (O : Type) [Inhabited O] (ops : List Op), (∀ op ∈ ops, op.wf) →
      ops.length ≤ 2 ^ 40 → freeListOK (run (New O) ops)) ∧
    (c2F.1.rootFree = c2A.2 ∧ getMeta? c2F.1 c2A.2 = some ⟨c2A.2⟩ ∧
      c2B.1.rootFree = Ref.nil ∧ (GetStats c2B.1).reused = 1) := by
  constructor
  · intro O _ ops hops hlen
    obtain ⟨fl, hwf, _⟩ := run_WF ops (New O) [] (WF_New O) hops (by simpa [New] using hlen)
    refine ⟨fl, hwf.root_eq, hwf.chain, ?_, chain_nextFree_ne_nil hwf.chain hwf.valid⟩
    constructor
    · intro hroot
      exact (WF_root_nil_iff hwf).mp (by rw [hroot]; rfl)
    · intro hfl
      subst hfl
      simpa using hwf.root_eq
  · exact ⟨by decide, by decide, by decide, by decide⟩

/-- C2 witness: the invariant applied to the concrete sequence of one
allocation followed by one free. -/
theorem c2_freelist_invariant_witness :
    ((∀ op ∈ [Op.alloc, Op.free ⟨1, 1⟩], op.wf) ∧
      ([Op.alloc, Op.free ⟨1, 1⟩] : List Op).length ≤ 2 ^ 40) ∧
    freeListOK (run (New Nat) [Op.alloc, Op.free ⟨1, 1⟩]) := by
  refine ⟨⟨?_, by norm_num⟩, ?_⟩
  · intro op hop
    simp at hop
    rcases hop with rfl | rfl
    · exact trivial
    · exact ⟨by decide, by decide⟩
  · refine c2_freelist_invariant.1 Nat [Op.alloc, Op.free ⟨1, 1⟩] ?_ (by norm_num)
    intro op hop
    simp at hop
    rcases hop with rfl | rfl
    · exact trivial
    · exact ⟨by decide, by decide⟩

/-- C3 counterexample: allocate r, free it, allocate again (the slot is
reused); a Get through the saved r now succeeds with the re-allocated
object, so it is not the case that every Get after Free(r) panics. The
detection is also not generation-based: there is no generation field. -/
theorem c3_counterexample :
    c3F.2 = true ∧ Get? c3R.1 c3A.2 = some 0 ∧ ¬ Get? c3R.1 c3A.2 = none := by
  refine ⟨by decide, by decide, by decide⟩

/-- C3 (amended): after Free(r) succeeds the slot's metadata marks it freed
(non-nil nextFree), and in every invariant-satisfying state in which r is
still on the free list — whatever operations intervened since the free —
any call to Get(r) panics; once a later Alloc re-allocates the slot,
popping it off the free list, Get on the popped reference succeeds,
returning the re-allocated object. There is no generation check, so the
detection does not persist past reuse. -/
theorem c3_uaf_detection :
    (∀ (O : Type) (s : Store O) (r : Ref) (s' : Store O),
      Shape s → Free s r = (s', true) → Get? s' r = none) ∧
    (∀ (O : Type) (s : Store O) (fl : List Ref) (r : Ref),
      WF s fl → r ∈ fl → Get? s r = none) ∧
    (∀ (O : Type) [Inhabited O] (s : Store O) (a : Ref) (t : List Ref),
      WF s (a :: t) → ∃ s' v, Alloc s = some (s', a) ∧ Get? s' a = some v) := by
  refine ⟨?_, ?_, ?_⟩
  · intro O s r s' hs heq
    obtain ⟨m', h1, h2⟩ := Free_marks_freed hs heq
    exact Get?_none_of_freed h1 h2
  · intro O s fl r hwf hmem
    obtain ⟨m, hm, hne⟩ := chain_nextFree_ne_nil hwf.chain hwf.valid r hmem
    exact Get?_none_of_freed hm hne
  · intro O _ s a t hwf
    obtain ⟨s', halloc, hwf', _, _, _, _, hlen, _, hgma, _⟩ := WF_alloc_reuse hwf
    have hvalid' : refValid s' a :=
      (refValid_congr hlen a).mpr (hwf.valid a (List.mem_cons_self a t))
    obtain ⟨v, hv⟩ := getObject?_isSome hwf'.shape hvalid'
    exact ⟨s', v, halloc, Get?_intro hgma hv⟩

/-- C3 witness: Get panics right after the concrete free; it still panics
after an unrelated further free intervenes (the slot stays on the free
list); and once Alloc pops the slot, Get on the popped reference succeeds. -/
theorem c3_uaf_detection_witness :
    (Shape c3A.1 ∧ Free c3A.1 c3A.2 = ((Free c3A.1 c3A.2).1, true) ∧
      (⟨1, 1⟩ : Ref) ∈ [(⟨1, 2⟩ : Ref), ⟨1, 1⟩]) ∧
    Get? (Free c3A.1 c3A.2).1 c3A.2 = none ∧
    Get? (Free (Free (New Nat) ⟨1, 1⟩).1 ⟨1, 2⟩).1 ⟨1, 1⟩ = none ∧
    (∃ (s' : Store Nat) (v : Nat),
      Alloc (Free (Free (New Nat) ⟨1, 1⟩).1 ⟨1, 2⟩).1 = some (s', ⟨1, 2⟩) ∧
      Get? s' ⟨1, 2⟩ = some v) := by
  have hshape : Shape c3A.1 :=
    ⟨by decide, by decide, by decide, by decide, by decide, by decide⟩
  obtain ⟨s1, heq1, hwf1, _, _, _, _, _, _, _, _, hgo1⟩ :=
    WF_free (WF_New Nat) (⟨by decide, by decide⟩ : (⟨1, 1⟩ : Ref).wf) (by decide) rfl
  have hm2 : getMeta? s1 ⟨1, 2⟩ = some ⟨Ref.nil⟩ := by
    rw [hgo1 ⟨1, 2⟩ ⟨by decide, by decide, by decide, by decide⟩ (by decide)]
    decide
  obtain ⟨s2, heq2, hwf2, _, _, _, _, _, _, _, _, _⟩ :=
    WF_free hwf1 (⟨by decide, by decide⟩ : (⟨1, 2⟩ : Ref).wf) hm2 rfl
  have hs1eq : (Free (New Nat) ⟨1, 1⟩).1 = s1 := by rw [heq1]
  have hs2eq : (Free s1 ⟨1, 2⟩).1 = s2 := by rw [heq2]
  refine ⟨⟨hshape, rfl, by decide⟩, ?_, ?_, ?_⟩
  · exact c3_uaf_detection.1 Nat c3A.1 c3A.2 (Free c3A.1 c3A.2).1 hshape rfl
  · rw [hs1eq, hs2eq]
    exact c3_uaf_detection.2.1 Nat s2 [⟨1, 2⟩, ⟨1, 1⟩] ⟨1, 1⟩ hwf2 (by simp)
  · rw [hs1eq, hs2eq]
    exact c3_uaf_detection.2.2 Nat s2 ⟨1, 2⟩ [⟨1, 1⟩] hwf2

/-- C4: freeing the same reference twice panics the second time, with the
store unchanged by the panicking call; the trigger is exactly that the
slot's metadata already carries a non-nil nextFree. -/
theorem c4_double_free : ∀ (O : Type) (s : Store O) (r : Ref) (s' : Store O),
    Shape s → Free s r = (s', true) →
    Free s' r = (s', false) ∧ ∃ m, getMeta? s' r = some m ∧ m.nextFree ≠ Ref.nil := by
  intro O s r s' hs heq
  obtain ⟨m', h1, h2⟩ := Free_marks_freed hs heq
  exact ⟨Free_panics_of_freed h1 h2, m', h1, h2⟩

/-- C4 witness: double free at the concrete one-allocation store. -/
theorem c4_double_free_witness :
    (Shape c4A.1 ∧ Free c4A.1 c4A.2 = (c4F.1, true)) ∧
    Free c4F.1 c4A.2 = (c4F.1, false) := by
  refine ⟨⟨⟨by decide, by decide, by decide, by decide, by decide, by decide⟩, rfl⟩, ?_⟩
  exact (c4_double_free Nat c4A.1 c4A.2 c4F.1
    ⟨by decide, by decide, by decide, by decide, by decide, by decide⟩ rfl).1

/-- C5: round trip and stability. Writing a value through a freshly
allocated reference and calling Get observes that value; and after any
number N of further allocations in the pool, Get through any previously
live reference still returns its original value — allocation never
relocates or overwrites existing slots. -/
theorem c5_roundtrip_stability :
    (∀ (O : Type) [Inhabited O] (s : Store O) (fl : List Ref) (s' : Store O)
      (r : Ref) (v : O), WF s fl → s.meta.length + 1 < U32 →
      Alloc s = some (s', r) → Get? (writeObject s' r v) r = some v) ∧
    (∀ (O : Type) [Inhabited O] (s : Store O) (fl : List Ref) (N : Nat)
      (r0 : Ref) (v : O), WF s fl → s.allocs + N ≤ 2 ^ 40 → r0.wf →
      Get? s r0 = some v → Get? (run s (List.replicate N Op.alloc)) r0 = some v) := by
  constructor
  · intro O _ s fl s' r v hwf hb halloc
    exact Get?_roundTrip hwf hb halloc v
  · intro O _ s fl N r0 v hwf hb hr0 hget
    exact Get?_run_allocs_stable N s fl hwf hb hr0 hget

/-- C5 witness: round trip of the value 7 through the first allocation of a
fresh store, and stability of a live slot under two further allocations. -/
theorem c5_roundtrip_stability_witness :
    ((New Nat).meta.length + 1 < U32 ∧ (New Nat).allocs + 2 ≤ 2 ^ 40 ∧
      Get? (New Nat) ⟨1, 2⟩ = some 0) ∧
    Get? (writeObject ((Alloc (New Nat)).getD (New Nat, Ref.nil)).1 ⟨1, 1⟩ 7) ⟨1, 1⟩ =
      some 7 ∧
    Get? (run (New Nat) (List.replicate 2 Op.alloc)) ⟨1, 2⟩ = some 0 := by
  refine ⟨⟨by decide, by norm_num [New], by decide⟩, ?_, ?_⟩
  · exact c5_roundtrip_stability.1 Nat (New Nat) [] _ ⟨1, 1⟩ 7 (WF_New Nat)
      (by decide) rfl
  · exact c5_roundtrip_stability.2 Nat (New Nat) [] 2 ⟨1, 2⟩ 0 (WF_New Nat)
      (by norm_num [New]) ⟨by decide, by decide⟩ (by decide)

/-- C6: after any sequence of Alloc and Free operations the reported stats
satisfy live = allocs - frees, reused <= allocs, rawAllocs = allocs -
reused, and chunks >= ceil(rawAllocs / 1024). -/
theorem c6_stats : ∀ (O : Type) [Inhabited O] (ops : List Op),
    (∀ op ∈ ops, op.wf) → ops.length ≤ 2 ^ 40 →
    (GetStats (run (New O) ops)).live =
      (GetStats (run (New O) ops)).allocs - (GetStats (run (New O) ops)).frees ∧
    (GetStats (run (New O) ops)).reused ≤ (GetStats (run (New O) ops)).allocs ∧
    (GetStats (run (New O) ops)).rawAllocs =
      (GetStats (run (New O) ops)).allocs - (GetStats (run (New O) ops)).reused ∧
    ((GetStats (run (New O) ops)).rawAllocs + 1023) / 1024 ≤
      (GetStats (run (New O) ops)).chunks := by
  intro O _ ops hops hlen
  obtain ⟨fl, hwf, _⟩ := run_WF ops (New O) [] (WF_New O) hops (by simpa [New] using hlen)
  refine ⟨rfl, ?_, rfl, ?_⟩
  · show ((run (New O) ops).reused : Int) ≤ ((run (New O) ops).allocs : Int)
    exact_mod_cast hwf.reused_le
  · show (((run (New O) ops).allocs : Int) - ((run (New O) ops).reused : Int) + 1023) / 1024 ≤
      (((run (New O) ops).objects.length : Nat) : Int)
    have hc := hwf.chunks_eq
    have hle := hwf.shape.len_eq
    have hr := hwf.reused_le
    unfold rawAllocs at hc
    simp only [objectChunkSize] at hc
    omega

/-- C6 witness: the stats relations at the concrete sequence
alloc, alloc, free (1,1), alloc. -/
theorem c6_stats_witness :
    ((∀ op ∈ [Op.alloc, Op.alloc, Op.free ⟨1, 1⟩, Op.alloc], op.wf) ∧
      ([Op.alloc, Op.alloc, Op.free ⟨1, 1⟩, Op.alloc] : List Op).length ≤ 2 ^ 40) ∧
    (GetStats (run (New Nat) [Op.alloc, Op.alloc, Op.free ⟨1, 1⟩, Op.alloc])).reused ≤
      (GetStats (run (New Nat) [Op.alloc, Op.alloc, Op.free ⟨1, 1⟩, Op.alloc])).allocs ∧
    ((GetStats (run (New Nat) [Op.alloc, Op.alloc, Op.free ⟨1, 1⟩, Op.alloc])).rawAllocs + 1023) / 1024 ≤
      (GetStats (run (New Nat) [Op.alloc, Op.alloc, Op.free ⟨1, 1⟩, Op.alloc])).chunks := by
  have hops : ∀ op ∈ [Op.alloc, Op.alloc, Op.free (⟨1, 1⟩ : Ref), Op.alloc], op.wf := by
    intro op hop
    simp at hop
    rcases hop with rfl | rfl | rfl
    · exact trivial
    · exact ⟨by decide, by decide⟩
    · exact trivial
  refine ⟨⟨hops, by norm_num⟩, ?_⟩
  have h := c6_stats Nat [Op.alloc, Op.alloc, Op.free ⟨1, 1⟩, Op.alloc] hops (by norm_num)
  exact ⟨h.2.1, h.2.2.2⟩

/-- C7: the read path is pure. Get returns the store unchanged in every
branch (the Go body performs no store write), and its result depends only
on the target slot's metadata record and object value, so it reads neither
the offset counter, the chunk list, the free-list root, nor the
accounting counters. -/
theorem c7_get_pure :
    (∀ (O : Type) (s : Store O) (r : Ref), (GetOp s r).2 = s) ∧
    (∀ (O : Type) (s1 s2 : Store O) (r : Ref),
      getMeta? s1 r = getMeta? s2 r → getObject? s1 r = getObject? s2 r →
      (GetOp s1 r).1 = (GetOp s2 r).1) := by
  constructor
  · intro O s r
    exact GetOp_snd s r
  · intro O s1 s2 r hm ho
    rw [GetOp_fst, GetOp_fst]
    unfold Get?
    rw [hm]
    cases getMeta? s2 r with
    | none => rfl
    | some m =>
      by_cases hn : m.nextFree.IsNil <;> simp [hn, ho]

/-- C7 witness: two stores differing only in an unrelated slot's object
value and in no metadata give the same Get result at (1,2), and Get leaves
a concrete store unchanged. -/
theorem c7_get_pure_witness :
    (getMeta? (New Nat) ⟨1, 2⟩ = getMeta? (writeObject (New Nat) ⟨1, 1⟩ 5) ⟨1, 2⟩ ∧
      getObject? (New Nat) ⟨1, 2⟩ = getObject? (writeObject (New Nat) ⟨1, 1⟩ 5) ⟨1, 2⟩) ∧
    (GetOp (New Nat) ⟨1, 1⟩).2 = New Nat ∧
    (GetOp (New Nat) ⟨1, 2⟩).1 = (GetOp (writeObject (New Nat) ⟨1, 1⟩ 5) ⟨1, 2⟩).1 := by
  refine ⟨⟨by decide, by decide⟩, c7_get_pure.1 Nat (New Nat) ⟨1, 1⟩, ?_⟩
  exact c7_get_pure.2 Nat (New Nat) (writeObject (New Nat) ⟨1, 1⟩ 5) ⟨1, 2⟩
    (by decide) (by decide)

/-- C10: error atomicity. A Free that panics (double free or bad index)
returns the state it was called with — the frees counter, free-list root,
metadata and objects are all unchanged — and a panicking or succeeding Get
never changes the store at all. -/
theorem c10_error_atomicity :
    (∀ (O : Type) (s : Store O) (r : Ref), (Free s r).2 = false → (Free s r).1 = s) ∧
    (∀ (O : Type) (s : Store O) (r : Ref), (GetOp s r).2 = s) :=
  ⟨fun _ s r h => Free_fail_eq s r h, fun _ s r => GetOp_snd s r⟩

/-- C10 witness: the double free of the concrete scenario panics and
leaves the store exactly as it was. -/
theorem c10_error_atomicity_witness :
    (Free c4F.1 c4A.2).2 = false ∧ (Free c4F.1 c4A.2).1 = c4F.1 := by
  refine ⟨by decide, c10_error_atomicity.1 Nat c4F.1 c4A.2 (by decide)⟩

/-- C8: realloc contract, on the spec-modelled pointerstore reference. For
a valid reference (stored generation equal to the metadata's), Realloc
yields a reference with the same masked data pointer and the same metadata
pointer but a different generation; afterwards the new reference
dereferences successfully while the old one fails. -/
theorem c8_realloc_contract : ∀ (hp : PSHeap) (r : RefPointer),
    r.Gen = (hp r.metaAddr).gen → (hp r.metaAddr).gen < 256 →
    (RefPointer.Realloc hp r).2.dataPtrValue = r.dataPtrValue ∧
    (RefPointer.Realloc hp r).2.metaAddr = r.metaAddr ∧
    (RefPointer.Realloc hp r).2.Gen ≠ r.Gen ∧
    RefPointer.DataPtr? (RefPointer.Realloc hp r).1 (RefPointer.Realloc hp r).2 =
      some r.dataPtrValue ∧
    RefPointer.DataPtr? (RefPointer.Realloc hp r).1 r = none := by
  intro hp r hvalid hlt
  have hglt : ((hp r.metaAddr).gen + 1) % 256 < 256 := Nat.mod_lt _ (by norm_num)
  have hgne : ((hp r.metaAddr).gen + 1) % 256 ≠ (hp r.metaAddr).gen := by omega
  have hheap : psWrite hp r.metaAddr ⟨((hp r.metaAddr).gen + 1) % 256⟩ r.metaAddr =
      ⟨((hp r.metaAddr).gen + 1) % 256⟩ := by
    unfold psWrite
    simp
  unfold RefPointer.Realloc
  dsimp only
  refine ⟨dataPtrValue_setGen r _, rfl, ?_, ?_, ?_⟩
  · show (r.setGen (((hp r.metaAddr).gen + 1) % 256)).Gen ≠ r.Gen
    rw [Gen_setGen, Nat.mod_eq_of_lt hglt, hvalid]
    exact hgne
  · show RefPointer.DataPtr? _ (r.setGen (((hp r.metaAddr).gen + 1) % 256)) = _
    unfold RefPointer.DataPtr?
    rw [show (r.setGen (((hp r.metaAddr).gen + 1) % 256)).metaAddr = r.metaAddr from rfl,
      hheap, Gen_setGen, Nat.mod_eq_of_lt hglt, if_pos rfl, dataPtrValue_setGen]
  · unfold RefPointer.DataPtr?
    rw [hheap, if_neg (by rw [hvalid]; exact fun h => hgne h.symm)]

/-- C8 witness: the realloc contract at a concrete heap and reference. -/
theorem c8_realloc_contract_witness :
    ((⟨2, 3⟩ : RefPointer).Gen = ((fun _ => (⟨0⟩ : PSMeta)) 3).gen ∧
      ((fun _ => (⟨0⟩ : PSMeta)) 3).gen < 256) ∧
    RefPointer.DataPtr? (RefPointer.Realloc (fun _ => ⟨0⟩) ⟨2, 3⟩).1 ⟨2, 3⟩ = none := by
  refine ⟨⟨by decide, by decide⟩, ?_⟩
  exact (c8_realloc_contract (fun _ => ⟨0⟩) ⟨2, 3⟩ (by decide) (by decide)).2.2.2.2

/-- C9: tag hiding, on the spec-modelled pointerstore reference. Storing
any generation tag into a reference (and the matching metadata record)
leaves the values returned by the data-pointer and metadata-pointer
accessors unchanged: the accessors mask the top 8 bits out of the address
word. -/
theorem c9_tag_hiding : ∀ (hp : PSHeap) (r : RefPointer) (g : Nat),
    (r.setGen g).dataPtrValue = r.dataPtrValue ∧
    (r.setGen g).metaAddr = r.metaAddr ∧
    (r.setGen g).Gen = g % 256 ∧
    RefPointer.DataPtr? (psWrite hp r.metaAddr ⟨g % 256⟩) (r.setGen g) =
      some r.dataPtrValue ∧
    RefPointer.metadataPtr? (psWrite hp r.metaAddr ⟨g % 256⟩) (r.setGen g) =
      some r.metaAddr := by
  intro hp r g
  have hheap : psWrite hp r.metaAddr ⟨g % 256⟩ r.metaAddr = ⟨g % 256⟩ := by
    unfold psWrite
    simp
  refine ⟨dataPtrValue_setGen r g, rfl, Gen_setGen r g, ?_, ?_⟩
  · unfold RefPointer.DataPtr?
    rw [show (r.setGen g).metaAddr = r.metaAddr from rfl, hheap, Gen_setGen,
      if_pos rfl, dataPtrValue_setGen]
  · unfold RefPointer.metadataPtr?
    rw [show (r.setGen g).metaAddr = r.metaAddr from rfl, hheap, Gen_setGen,
      if_pos rfl]

end OS
